/-
Formal model of the batch-matrix acquisition and aggregation engine of
scripts/generate_all_routes.py.

Modelling conventions:
  - Python dicts are association lists (key, value) with unique keys in
    insertion order; dict[k] = v is dinsert (replace in place, else append),
    dict.update(other) is dupdate (left fold of dinsert), len is List.length.
  - Python floats are exact rationals; round(x, 1) is half-even rounding of
    the exact rational to one decimal (roundHalfEven).  The one-decimal
    distance value is stored scaled by 10 as an exact natural number of
    tenths of a km (round1), with round1_matches_rational_rounding proving
    the scaled integer equals the rational round(distance_m / 1000, 1)
    formula; this keeps every cache value kernel-computable.
  - the external transport (requests.get, response.ok, response.json) is an
    oracle value of type TransportOutcome per request index; a raised
    exception propagates as Except.error, mirroring that the source wraps no
    try/except around the call.
  - f-string keys are String.append; the [:20] slice is String.take 20.
-/
import Mathlib

set_option autoImplicit false

namespace RoutesGen

/-- Location record as read from locations.json: id, nombre, latitud,
longitud fields (coordinates kept as opaque strings; they are only ever
formatted into the request body, which the claims do not touch). -/
structure Location where
  id : String
  nombre : String
  latitud : String
  longitud : String
deriving DecidableEq, Repr

/-- Route cache value: the object written at each cache key.
distance_km_tenths holds round(distance_m / 1000, 1) scaled by 10 (the
rounded distance is always a whole number of tenths of a km), and
duration_seconds the raw seconds value. -/
structure RouteInfo where
  distance_km_tenths : Nat
  duration_seconds : Nat
deriving DecidableEq, Repr

/-- One element of a Distance Matrix response row.  distance and duration
model element["distance"]["value"] (meters) and element["duration"]["value"]
(seconds), which the source reads only when status = "OK". -/
structure MatrixElement where
  status : String
  distance : Nat
  duration : Nat
deriving DecidableEq, Repr

/-- One row of a Distance Matrix response (row.get("elements", [])). -/
structure MatrixRow where
  elements : List MatrixElement
deriving DecidableEq, Repr

/-- A parsed Distance Matrix JSON body: top-level status and
data.get("rows", []). -/
structure MatrixResponse where
  status : String
  rows : List MatrixRow
deriving DecidableEq, Repr

/-- Warning record emitted by process_matrix_response for a non-OK element:
the two truncated names and the reported status, mirroring the print call. -/
structure FailureNote where
  origin_name : String
  destination_name : String
  element_status : String
deriving DecidableEq, Repr

/-- Route cache: a Python dict modelled as an association list with unique
keys in insertion order. -/
abbrev RouteCache := List (String × RouteInfo)

/-- Keys of a cache in insertion order. -/
def dkeys (d : RouteCache) : List String := d.map Prod.fst

/-- Python dict write d[k] = v: replace the binding in place when the key
exists, otherwise append the new binding. -/
def dinsert (k : String) (v : RouteInfo) (d : RouteCache) : RouteCache :=
  if k ∈ dkeys d then d.map (fun p => if p.1 = k then (k, v) else p)
  else d ++ [(k, v)]

/-- Python dict.update(r): fold every binding of r into d in order. -/
def dupdate (d r : RouteCache) : RouteCache :=
  r.foldl (fun acc p => dinsert p.1 p.2 acc) d

/-- Python dict lookup d.get(k). -/
def dget (k : String) (d : RouteCache) : Option RouteInfo :=
  (d.find? (fun p => p.1 == k)).map Prod.snd

/-- Half-even rounding of an exact rational to the nearest integer, the
rounding Python round uses (ties go to the even integer). -/
def roundHalfEven (q : ℚ) : ℤ :=
  if q - ⌊q⌋ < 1/2 then ⌊q⌋
  else if (1:ℚ)/2 < q - ⌊q⌋ then ⌊q⌋ + 1
  else if ⌊q⌋ % 2 = 0 then ⌊q⌋ else ⌊q⌋ + 1

/-- Value stored in distance_km, in tenths of a km: half-even rounding of
meters/100, computed in exact natural arithmetic.  Dividing by 10 recovers
round(distance_m / 1000, 1); see round1_matches_rational_rounding. -/
def round1 (m : Nat) : Nat :=
  if m % 100 < 50 then m / 100
  else if 50 < m % 100 then m / 100 + 1
  else if (m / 100) % 2 = 0 then m / 100 else m / 100 + 1

/-- Composite cache key f-string "{origin_id}_{destination_id}". -/
def rkey (origin destination : Location) : String :=
  origin.id ++ "_" ++ destination.id

/-- Structural worker for pyRange: fuel bounds the number of iterations so
that the kernel can evaluate the definition; fuel = stop - start at the
first call and never runs out while start < stop and 0 < step. -/
def pyRangeAux (stop step : Nat) : Nat → Nat → List Nat
  | 0, _ => []
  | fuel + 1, start =>
    if start < stop ∧ 0 < step then start :: pyRangeAux stop step fuel (start + step)
    else []

/-- Python range(start, stop, step) for natural bounds and positive step. -/
def pyRange (start stop step : Nat) : List Nat :=
  pyRangeAux stop step (stop - start) start

/-- Python slice l[a:b] for 0 ≤ a ≤ b (both already clamped by the caller,
as in the source where b = min(a + B, n)). -/
def pySlice {α : Type} (l : List α) (a b : Nat) : List α :=
  (l.drop a).take (b - a)

/-- SubQuery descriptor: one grid cell of the batch partition, an origin
batch crossed with a destination batch. -/
structure SubQuery (α : Type) where
  origin_batch : List α
  destination_batch : List α
deriving DecidableEq, Repr

/-- BATCH_SIZE = 10 from the source. -/
def BATCH_SIZE : Nat := 10

/-- Batch partitioner: the two nested index-range loops of main, reified as
the ordered list of SubQuery descriptors.  For each i_start in
range(0, n, B) the origin batch is locations[i_start:min(i_start+B, n)],
crossed with every destination batch built the same way. -/
def makeSubQueries {α : Type} (locations : List α) (B : Nat) : List (SubQuery α) :=
  let n := locations.length
  (pyRange 0 n B).flatMap fun i_start =>
    let i_end := min (i_start + B) n
    let batch_origins := pySlice locations i_start i_end
    (pyRange 0 n B).map fun j_start =>
      let j_end := min (j_start + B) n
      { origin_batch := batch_origins
        destination_batch := pySlice locations j_start j_end }

/-- Ordered cross product of two lists, the set of (origin, destination)
pairs a SubQuery covers. -/
def crossPairs {α : Type} (xs ys : List α) : List (α × α) :=
  xs.flatMap fun a => ys.map fun b => (a, b)

/-- Inner loop of process_matrix_response over one row: elements enumerated
from index j, destination = destinations[j]; IndexError is none.  The
accumulator carries the routes dict and the warning lines printed for
non-OK elements. -/
def processElements (origin : Location) (destinations : List Location)
    (elements : List MatrixElement) (j : Nat)
    (acc : RouteCache × List FailureNote) :
    Option (RouteCache × List FailureNote) :=
  match elements with
  | [] => some acc
  | e :: rest =>
    match destinations[j]? with
    | none => none
    | some destination =>
      if origin.id = destination.id then
        processElements origin destinations rest (j + 1) acc
      else if e.status = "OK" then
        processElements origin destinations rest (j + 1)
          (dinsert (rkey origin destination)
            { distance_km_tenths := round1 e.distance, duration_seconds := e.duration }
            acc.1, acc.2)
      else
        processElements origin destinations rest (j + 1)
          (acc.1, acc.2 ++
            [{ origin_name := origin.nombre.take 20
               destination_name := destination.nombre.take 20
               element_status := e.status }])

/-- Outer loop of process_matrix_response over the rows: rows enumerated
from index i, origin = origins[i]; IndexError is none. -/
def processRows (origins destinations : List Location)
    (rows : List MatrixRow) (i : Nat)
    (acc : RouteCache × List FailureNote) :
    Option (RouteCache × List FailureNote) :=
  match rows with
  | [] => some acc
  | row :: rest =>
    match origins[i]? with
    | none => none
    | some origin =>
      match processElements origin destinations row.elements 0 acc with
      | none => none
      | some acc2 => processRows origins destinations rest (i + 1) acc2

/-- process_matrix_response(data, origins, destinations): walk the response
grid row-major, build the routes dict and the warning lines; none models an
uncaught IndexError. -/
def process_matrix_response (data : MatrixResponse)
    (origins destinations : List Location) :
    Option (RouteCache × List FailureNote) :=
  processRows origins destinations data.rows 0 ([], [])

/-- Outcome of one requests.get call against the service: the call raised
(network error or timeout, which the source does not catch), returned a
non-ok HTTP response, or returned a parsed JSON body. -/
inductive TransportOutcome where
  | raised
  | httpError (code : Nat)
  | jsonResponse (data : MatrixResponse)
deriving DecidableEq, Repr

/-- Errors that escape the per-request handling and abort the run. -/
inductive RunError where
  | transportException
  | indexError
deriving DecidableEq, Repr

/-- get_distance_matrix: returns the body when HTTP succeeded and the
service status is "OK", none on an HTTP error or a non-OK service status,
and propagates a raised transport exception. -/
def get_distance_matrix (outcome : TransportOutcome) :
    Except RunError (Option MatrixResponse) :=
  match outcome with
  | .raised => .error .transportException
  | .httpError _ => .ok none
  | .jsonResponse data =>
    if data.status ≠ "OK" then .ok none else .ok (some data)

/-- Request loop of main over the SubQuery list: one get_distance_matrix
call per cell indexed by request_count; a none result is skipped
("Failed!"), a successful response is aggregated and merged by
cache.update(routes); an error aborts the run. -/
def runLoop (oracle : Nat → TransportOutcome)
    (sqs : List (SubQuery Location)) (request_count : Nat)
    (cache : RouteCache) : Except RunError RouteCache :=
  match sqs with
  | [] => .ok cache
  | sq :: rest =>
    match get_distance_matrix (oracle request_count) with
    | .error e => .error e
    | .ok none => runLoop oracle rest (request_count + 1) cache
    | .ok (some data) =>
      match process_matrix_response data sq.origin_batch sq.destination_batch with
      | none => .error .indexError
      | some pr => runLoop oracle rest (request_count + 1) (dupdate cache pr.1)

/-- Observable outcome of one run of main. -/
inductive RunOutcome where
  | configExit (code : Nat)
  | crashed
  | completed (cache : RouteCache)
deriving DecidableEq, Repr

/-- Process exit status of a run outcome: sys.exit(1) and an uncaught
exception both terminate the interpreter with status 1, a completed run
with status 0. -/
def exitCode : RunOutcome → Nat
  | .configExit c => c
  | .crashed => 1
  | .completed _ => 0

/-- main: exit 1 before any request when GOOGLE_API_KEY is empty, otherwise
run the batch loop over makeSubQueries locations BATCH_SIZE; the final
summary only prints, so a shortfall never changes the outcome. -/
def main (apiKey : String) (locations : List Location)
    (oracle : Nat → TransportOutcome) : RunOutcome :=
  if apiKey = "" then .configExit 1
  else
    match runLoop oracle (makeSubQueries locations BATCH_SIZE) 0 [] with
    | .error _ => .crashed
    | .ok cache => .completed cache

/-- Pairs covered by a list of SubQueries: the concatenation of each cell's
origin × destination cross product. -/
def subQueryPairs {α : Type} (sqs : List (SubQuery α)) : List (α × α) :=
  sqs.flatMap fun sq => crossPairs sq.origin_batch sq.destination_batch

/-- Keys a fully successful SubQuery cell contributes: one composite key per
non-self (origin, destination) pair of the cell, in row-major order. -/
def nonselfKeys (origins destinations : List Location) : List String :=
  (crossPairs origins destinations).filterMap fun p =>
    if p.1.id = p.2.id then none else some (rkey p.1 p.2)

/-- Well-formed all-OK response for a batch pair: service status OK, one row
per origin, one element per destination, every element status OK. -/
def OkShaped (data : MatrixResponse) (origins destinations : List Location) : Prop :=
  data.status = "OK" ∧ data.rows.length = origins.length ∧
    ∀ row ∈ data.rows, row.elements.length = destinations.length ∧
      ∀ e ∈ row.elements, e.status = "OK"

instance (data : MatrixResponse) (origins destinations : List Location) :
    Decidable (OkShaped data origins destinations) := by
  unfold OkShaped
  infer_instance

/-- Transport outcome carrying a well-formed all-OK response for the given
SubQuery. -/
def OkOutcome : TransportOutcome → SubQuery Location → Prop
  | .jsonResponse data, sq => OkShaped data sq.origin_batch sq.destination_batch
  | .raised, _ => False
  | .httpError _, _ => False

instance (o : TransportOutcome) (sq : SubQuery Location) :
    Decidable (OkOutcome o sq) := by
  cases o with
  | raised => exact isFalse fun h => h
  | httpError c => exact isFalse fun h => h
  | jsonResponse data =>
    unfold OkOutcome
    infer_instance

/-- Transport outcomes that get_distance_matrix converts to None, i.e. the
per-SubQuery failures the loop recovers from: a non-ok HTTP response, or a
parsed body whose service status is not OK.  A raised exception is not in
this set. -/
def recoveredFailure : TransportOutcome → Prop
  | .raised => False
  | .httpError _ => True
  | .jsonResponse data => data.status ≠ "OK"

instance (o : TransportOutcome) : Decidable (recoveredFailure o) := by
  cases o with
  | raised => exact isFalse fun h => h
  | httpError c => exact isTrue trivial
  | jsonResponse data =>
    unfold recoveredFailure
    infer_instance

/-- Concrete example location with id "a". -/
def locA : Location := ⟨"a", "Alpha", "0", "0"⟩

/-- Concrete example location with id "b". -/
def locB : Location := ⟨"b", "Beta", "1", "1"⟩

/-- Concrete example location whose id "a_a" collides with the pair
(locA, locA) under the composite key encoding. -/
def locU : Location := ⟨"a_a", "Underscore", "2", "2"⟩

/-- Concrete well-formed all-OK 2 x 2 response used by witnesses and
counterexamples. -/
def resp2x2 : MatrixResponse :=
  ⟨"OK", [⟨[⟨"OK", 5000, 60⟩, ⟨"OK", 7000, 80⟩]⟩,
          ⟨[⟨"OK", 9000, 90⟩, ⟨"OK", 1000, 10⟩]⟩]⟩

/-- Provenance of a cache binding: some OK element at matching row/element
positions produced it, with the key and value formulas of the source. -/
def FromOkElement (data : MatrixResponse) (origins destinations : List Location)
    (b : String × RouteInfo) : Prop :=
  ∃ (i : Nat) (row : MatrixRow) (j : Nat) (e : MatrixElement)
    (origin destination : Location),
    data.rows[i]? = some row ∧ row.elements[j]? = some e ∧
    origins[i]? = some origin ∧ destinations[j]? = some destination ∧
    origin.id ≠ destination.id ∧ e.status = "OK" ∧
    b.1 = rkey origin destination ∧
    b.2 = { distance_km_tenths := round1 e.distance, duration_seconds := e.duration }

/-- Provenance of a warning line: some non-OK element at matching positions
of a non-self pair produced it. -/
def FromFailedElement (data : MatrixResponse) (origins destinations : List Location)
    (w : FailureNote) : Prop :=
  ∃ (i : Nat) (row : MatrixRow) (j : Nat) (e : MatrixElement)
    (origin destination : Location),
    data.rows[i]? = some row ∧ row.elements[j]? = some e ∧
    origins[i]? = some origin ∧ destinations[j]? = some destination ∧
    origin.id ≠ destination.id ∧ e.status ≠ "OK" ∧
    w = { origin_name := origin.nombre.take 20
          destination_name := destination.nombre.take 20
          element_status := e.status }

/-- Injectivity of the composite key encoding on the location registry:
distinct ordered pairs never share a key (holds e.g. when no id contains
an underscore). -/
def KeyInj (locations : List Location) : Prop :=
  ∀ o ∈ locations, ∀ d ∈ locations, ∀ o2 ∈ locations, ∀ d2 ∈ locations,
    rkey o d = rkey o2 d2 → o = o2 ∧ d = d2

instance (locations : List Location) : Decidable (KeyInj locations) := by
  unfold KeyInj
  infer_instance

theorem pyRangeAux_fuel {stop step : Nat} :
    ∀ (f1 f2 start : Nat), stop - start ≤ f1 → stop - start ≤ f2 →
      pyRangeAux stop step f1 start = pyRangeAux stop step f2 start := by
  intro f1
  induction f1 with
  | zero =>
    intro f2 start h1 h2
    match f2 with
    | 0 => rfl
    | f2 + 1 =>
      simp only [pyRangeAux]
      have : ¬ (start < stop ∧ 0 < step) := by omega
      simp [this]
  | succ f1 ih =>
    intro f2 start h1 h2
    match f2 with
    | 0 =>
      simp only [pyRangeAux]
      have : ¬ (start < stop ∧ 0 < step) := by omega
      simp [this]
    | f2 + 1 =>
      simp only [pyRangeAux]
      by_cases hc : start < stop ∧ 0 < step
      · simp only [hc, if_true]
        rw [ih f2 (start + step) (by omega) (by omega)]
      · simp [hc]

theorem pyRange_pos {start stop step : Nat} (h1 : start < stop) (h2 : 0 < step) :
    pyRange start stop step = start :: pyRange (start + step) stop step := by
  unfold pyRange
  have hf : stop - start = (stop - start - 1) + 1 := by omega
  rw [hf]
  simp only [pyRangeAux, h1, h2, and_true, if_pos]
  rw [pyRangeAux_fuel (stop - start - 1) (stop - (start + step)) (start + step)
    (by omega) (by omega)]

theorem pyRange_of_ge {start stop step : Nat} (h : stop ≤ start) :
    pyRange start stop step = [] := by
  unfold pyRange
  have : stop - start = 0 := by omega
  rw [this]
  rfl

theorem length_pyRange (step : Nat) (hstep : 0 < step) :
    ∀ (fuel start stop : Nat), stop - start ≤ fuel →
      (pyRange start stop step).length = (stop - start + step - 1) / step := by
  intro fuel
  induction fuel with
  | zero =>
    intro start stop h
    have hle : stop ≤ start := by omega
    rw [pyRange_of_ge hle]
    have : stop - start = 0 := by omega
    rw [this]
    simp [Nat.div_eq_of_lt, hstep]
  | succ fuel ih =>
    intro start stop h
    by_cases hlt : start < stop
    · rw [pyRange_pos hlt hstep]
      have hrec := ih (start + step) stop (by omega)
      simp only [List.length_cons, hrec]
      rcases le_or_lt (stop - start) step with hd | hd
      · have h1 : stop - (start + step) = 0 := by omega
        rw [h1]
        have h2 : (step - 1) / step = 0 := Nat.div_eq_of_lt (by omega)
        simp only [Nat.zero_add, h2]
        have h3 : stop - start + step - 1 = (stop - start - 1) + 1 * step := by omega
        rw [h3, Nat.add_mul_div_right _ _ hstep]
        have h4 : (stop - start - 1) / step = 0 := Nat.div_eq_of_lt (by omega)
        omega
      · have h1 : stop - (start + step) + step - 1 = stop - start - 1 := by omega
        have h2 : stop - start + step - 1 = (stop - start - 1) + step := by omega
        rw [h1, h2, Nat.add_div_right _ hstep]
    · rw [pyRange_of_ge (by omega)]
      have : stop - start = 0 := by omega
      rw [this]
      simp [Nat.div_eq_of_lt, hstep]

theorem flatMap_pySlice {α : Type} (l : List α) (B : Nat) (hB : 0 < B) :
    ∀ (fuel start : Nat), l.length - start ≤ fuel →
      ((pyRange start l.length B).flatMap fun s => pySlice l s (min (s + B) l.length))
        = l.drop start := by
  intro fuel
  induction fuel with
  | zero =>
    intro start h
    have hle : l.length ≤ start := by omega
    rw [pyRange_of_ge hle]
    simp [List.drop_eq_nil_of_le hle]
  | succ fuel ih =>
    intro start h
    by_cases hlt : start < l.length
    · rw [pyRange_pos hlt hB, List.flatMap_cons]
      rw [ih (start + B) (by omega)]
      have hchunk : pySlice l start (min (start + B) l.length) = (l.drop start).take B := by
        unfold pySlice
        have hlen : (l.drop start).length = l.length - start := List.length_drop start l
        rcases le_or_lt (start + B) l.length with hc | hc
        · have : min (start + B) l.length - start = B := by omega
          rw [this]
        · have h1 : min (start + B) l.length - start = l.length - start := by omega
          rw [h1, List.take_of_length_le (by omega), List.take_of_length_le (by omega)]
      have h5 : List.drop B (List.drop start l) = List.drop (start + B) l := by
        rw [List.drop_drop]
      rw [hchunk, ← h5, List.take_append_drop]
    · rw [pyRange_of_ge (by omega)]
      simp [List.drop_eq_nil_of_le (by omega : l.length ≤ start)]

theorem chunks_concat {α : Type} (l : List α) (B : Nat) (hB : 0 < B) :
    ((pyRange 0 l.length B).flatMap fun s => pySlice l s (min (s + B) l.length)) = l := by
  have := flatMap_pySlice l B hB l.length 0 (by omega)
  simpa using this

theorem count_flatMap {α β : Type} [BEq β] (l : List α) (f : α → List β) (b : β) :
    (l.flatMap f).count b = (l.map fun a => (f a).count b).sum := by
  induction l with
  | nil => simp
  | cons x xs ih => simp [List.flatMap_cons, List.count_append, ih]

theorem count_map_pair {α : Type} [DecidableEq α] (x a b : α) (ys : List α) :
    ((ys.map fun y => (x, y)).count (a, b)) = if x = a then ys.count b else 0 := by
  induction ys with
  | nil => simp
  | cons y ys ih =>
    simp only [List.map_cons, List.count_cons, ih]
    by_cases hxa : x = a
    · subst hxa
      by_cases hyb : y = b
      · subst hyb; simp
      · simp [hyb, Prod.ext_iff]
    · simp [hxa, Prod.ext_iff]

theorem count_crossPairs {α : Type} [DecidableEq α] (xs ys : List α) (a b : α) :
    (crossPairs xs ys).count (a, b) = xs.count a * ys.count b := by
  induction xs with
  | nil => simp [crossPairs]
  | cons x xs ih =>
    simp only [crossPairs, List.flatMap_cons, List.count_append] at *
    rw [ih, count_map_pair, List.count_cons]
    by_cases hxa : x = a
    · subst hxa
      simp [Nat.add_mul, Nat.add_comm]
    · simp [hxa]

theorem count_subQueryPairs {α : Type} [DecidableEq α] (l : List α) (B : Nat)
    (hB : 0 < B) (a b : α) :
    (subQueryPairs (makeSubQueries l B)).count (a, b) = l.count a * l.count b := by
  unfold subQueryPairs makeSubQueries
  rw [List.flatMap_assoc]
  simp only [List.flatMap_map]
  have hcnt : ∀ s : Nat,
      (((pyRange 0 l.length B).flatMap fun t =>
        crossPairs (pySlice l s (min (s + B) l.length)) (pySlice l t (min (t + B) l.length))).count (a, b))
      = (pySlice l s (min (s + B) l.length)).count a * l.count b := by
    intro s
    rw [count_flatMap]
    have : ((pyRange 0 l.length B).map fun t =>
        (crossPairs (pySlice l s (min (s + B) l.length)) (pySlice l t (min (t + B) l.length))).count (a, b))
        = (pyRange 0 l.length B).map fun t =>
          (pySlice l s (min (s + B) l.length)).count a * (pySlice l t (min (t + B) l.length)).count b := by
      apply List.map_congr_left
      intro t _
      exact count_crossPairs _ _ a b
    rw [this, List.sum_map_mul_left]
    congr 1
    rw [← count_flatMap, chunks_concat l B hB]
  rw [count_flatMap]
  have : ((pyRange 0 l.length B).map fun s =>
      (((pyRange 0 l.length B).flatMap fun t =>
        crossPairs (pySlice l s (min (s + B) l.length)) (pySlice l t (min (t + B) l.length)))).count (a, b))
      = (pyRange 0 l.length B).map fun s =>
        (pySlice l s (min (s + B) l.length)).count a * l.count b := by
    apply List.map_congr_left
    intro s _
    exact hcnt s
  rw [this, List.sum_map_mul_right]
  congr 1
  rw [← count_flatMap, chunks_concat l B hB]

theorem sum_map_const_nat {γ : Type} (R : List γ) (c : Nat) :
    (R.map fun _ => c).sum = R.length * c := by
  induction R with
  | nil => simp
  | cons x xs ih => simp [ih, Nat.succ_mul, Nat.add_comm]

theorem length_makeSubQueries {α : Type} (l : List α) (B : Nat) (hB : 0 < B) :
    (makeSubQueries l B).length = ((l.length + B - 1) / B) * ((l.length + B - 1) / B) := by
  unfold makeSubQueries
  rw [List.length_flatMap]
  simp only [Function.comp_def]
  have hmap : ((pyRange 0 l.length B).map fun i_start =>
      (((pyRange 0 l.length B).map fun j_start =>
        (SubQuery.mk (pySlice l i_start (min (i_start + B) l.length))
          (pySlice l j_start (min (j_start + B) l.length)) : SubQuery α))).length)
      = (pyRange 0 l.length B).map fun _ => (pyRange 0 l.length B).length := by
    apply List.map_congr_left
    intro s _
    exact List.length_map _ _
  rw [hmap, sum_map_const_nat]
  have hlen : (pyRange 0 l.length B).length = (l.length + B - 1) / B := by
    have := length_pyRange B hB l.length 0 l.length (by omega)
    simpa using this
  rw [hlen]

theorem length_pySlice_le {α : Type} (l : List α) (s B : Nat) :
    (pySlice l s (min (s + B) l.length)).length ≤ B := by
  unfold pySlice
  simp only [List.length_take, List.length_drop]
  omega

theorem mem_makeSubQueries {α : Type} {l : List α} {B : Nat} {sq : SubQuery α}
    (h : sq ∈ makeSubQueries l B) :
    ∃ s t, sq.origin_batch = pySlice l s (min (s + B) l.length)
      ∧ sq.destination_batch = pySlice l t (min (t + B) l.length) := by
  unfold makeSubQueries at h
  simp only [List.mem_flatMap, List.mem_map] at h
  obtain ⟨s, _, t, _, rfl⟩ := h
  exact ⟨s, t, rfl, rfl⟩

/-- Bridge between the executable integer rounding and the rational
specification: the stored tenths value equals the half-even rounding of
meters/100, so dividing it by 10 yields round(distance_m / 1000, 1) over
exact rationals. -/
theorem round1_matches_rational_rounding (m : Nat) :
    (round1 m : ℤ) = roundHalfEven ((m : ℚ) / 100) := by
  have hdm : m = 100 * (m / 100) + m % 100 := (Nat.div_add_mod m 100).symm
  have hrlt : m % 100 < 100 := Nat.mod_lt _ (by norm_num)
  have hm : (m : ℚ) = 100 * ((m / 100 : Nat) : ℚ) + ((m % 100 : Nat) : ℚ) := by
    exact_mod_cast congrArg (fun n : Nat => (n : ℚ)) hdm
  have hfloor : ⌊(m : ℚ) / 100⌋ = ((m / 100 : Nat) : ℤ) := by
    rw [Int.floor_eq_iff]
    constructor
    · rw [Int.cast_natCast, le_div_iff₀ (by norm_num : (0:ℚ) < 100), hm]
      have h0 : (0:ℚ) ≤ ((m % 100 : Nat) : ℚ) := by positivity
      linarith
    · rw [Int.cast_natCast, div_lt_iff₀ (by norm_num : (0:ℚ) < 100), hm]
      have h100 : ((m % 100 : Nat) : ℚ) < 100 := by exact_mod_cast hrlt
      linarith
  have hfrac : (m : ℚ) / 100 - (((m / 100 : Nat) : ℤ) : ℚ) = ((m % 100 : Nat) : ℚ) / 100 := by
    rw [Int.cast_natCast, hm]
    ring
  unfold roundHalfEven round1
  rw [hfloor, hfrac]
  by_cases h1 : m % 100 < 50
  · have hq1 : ((m % 100 : Nat) : ℚ) / 100 < 1/2 := by
      rw [div_lt_div_iff₀ (by norm_num) (by norm_num)]
      have : ((m % 100 : Nat) : ℚ) < 50 := by exact_mod_cast h1
      linarith
    rw [if_pos h1, if_pos hq1]
  · rw [if_neg h1]
    by_cases h2 : 50 < m % 100
    · have hq2 : (1:ℚ)/2 < ((m % 100 : Nat) : ℚ) / 100 := by
        rw [div_lt_div_iff₀ (by norm_num) (by norm_num)]
        have : (50:ℚ) < ((m % 100 : Nat) : ℚ) := by exact_mod_cast h2
        linarith
      have hq1 : ¬ (((m % 100 : Nat) : ℚ) / 100 < 1/2) := by linarith
      rw [if_neg hq1, if_pos hq2, if_pos h2]
      push_cast
      ring
    · have hr50 : m % 100 = 50 := by omega
      have hqeq : ((m % 100 : Nat) : ℚ) / 100 = 1/2 := by
        rw [hr50]
        norm_num
      have hq1 : ¬ (((m % 100 : Nat) : ℚ) / 100 < 1/2) := by
        rw [hqeq]
        exact lt_irrefl _
      have hq2 : ¬ ((1:ℚ)/2 < ((m % 100 : Nat) : ℚ) / 100) := by
        rw [hqeq]
        exact lt_irrefl _
      rw [if_neg hq1, if_neg hq2, if_neg h2]
      by_cases hpar : (m / 100) % 2 = 0
      · have hpari : ((m / 100 : Nat) : ℤ) % 2 = 0 := by omega
        rw [if_pos hpar, if_pos hpari]
      · have hpari : ¬ ((m / 100 : Nat) : ℤ) % 2 = 0 := by omega
        rw [if_neg hpar, if_neg hpari]
        push_cast
        ring

theorem mem_crossPairs {α : Type} {xs ys : List α} {p : α × α} :
    p ∈ crossPairs xs ys ↔ p.1 ∈ xs ∧ p.2 ∈ ys := by
  obtain ⟨a, b⟩ := p
  unfold crossPairs
  simp only [List.mem_flatMap, List.mem_map, Prod.mk.injEq]
  constructor
  · rintro ⟨x, hx, y, hy, rfl, rfl⟩
    exact ⟨hx, hy⟩
  · rintro ⟨ha, hb⟩
    exact ⟨a, ha, b, hb, rfl, rfl⟩

theorem nodup_crossPairs {α : Type} {xs ys : List α}
    (hx : xs.Nodup) (hy : ys.Nodup) : (crossPairs xs ys).Nodup := by
  induction xs with
  | nil => simp [crossPairs]
  | cons x xs ih =>
    rw [List.nodup_cons] at hx
    have hxs := ih hx.2
    unfold crossPairs at *
    rw [List.flatMap_cons]
    apply List.Nodup.append
    · exact hy.map (fun b c h => by simpa using (Prod.mk.injEq x b x c ▸ h).2)
    · exact hxs
    · intro p hp hp2
      have h1 : p.1 = x := by
        simp only [List.mem_map] at hp
        obtain ⟨b, _, rfl⟩ := hp
        rfl
      have h2 : p.1 ∈ xs := (mem_crossPairs.mp hp2).1
      exact hx.1 (h1 ▸ h2)

theorem crossPairs_append_left {α : Type} (xs ys zs : List α) :
    crossPairs (xs ++ ys) zs = crossPairs xs zs ++ crossPairs ys zs := by
  unfold crossPairs
  rw [List.flatMap_append]

theorem crossPairs_append_right_perm {α : Type} (xs ys zs : List α) :
    List.Perm (crossPairs xs (ys ++ zs)) (crossPairs xs ys ++ crossPairs xs zs) := by
  induction xs with
  | nil => simp [crossPairs]
  | cons x xs ih =>
    unfold crossPairs at *
    simp only [List.flatMap_cons, List.map_append] at ih ⊢
    rw [List.append_assoc, List.append_assoc]
    apply List.Perm.append_left
    refine (List.Perm.append_left _ ih).trans ?_
    exact List.perm_append_comm_assoc _ _ _

theorem crossPairs_flatten_left {α : Type} (C : List (List α)) (zs : List α) :
    crossPairs C.flatten zs = C.flatMap fun c => crossPairs c zs := by
  induction C with
  | nil => simp [crossPairs]
  | cons c C ih =>
    rw [List.flatten_cons, crossPairs_append_left, ih, List.flatMap_cons]

theorem crossPairs_flatten_right_perm {α : Type} (xs : List α) (C : List (List α)) :
    List.Perm (crossPairs xs C.flatten) (C.flatMap fun c => crossPairs xs c) := by
  induction C with
  | nil => simp [crossPairs]
  | cons c C ih =>
    rw [List.flatten_cons, List.flatMap_cons]
    exact (crossPairs_append_right_perm xs c C.flatten).trans
      (List.Perm.append_left _ ih)

theorem perm_flatMap_congr {α β : Type} (l : List α) (f g : α → List β)
    (h : ∀ a ∈ l, List.Perm (f a) (g a)) :
    List.Perm (l.flatMap f) (l.flatMap g) := by
  induction l with
  | nil => simp
  | cons x xs ih =>
    simp only [List.flatMap_cons]
    exact List.Perm.append (h x (by simp))
      (ih fun a ha => h a (by simp [ha]))

theorem subQueryPairs_perm {α : Type} (l : List α) (B : Nat) (hB : 0 < B) :
    List.Perm (subQueryPairs (makeSubQueries l B)) (crossPairs l l) := by
  unfold subQueryPairs makeSubQueries
  rw [List.flatMap_assoc]
  simp only [List.flatMap_map, Function.comp_def]
  have hflat : ((pyRange 0 l.length B).map fun s => pySlice l s (min (s + B) l.length)).flatten = l := by
    rw [← List.flatMap_def]
    exact chunks_concat l B hB
  have hinner : ∀ s ∈ pyRange 0 l.length B,
      List.Perm
        ((pyRange 0 l.length B).flatMap fun t =>
          crossPairs (pySlice l s (min (s + B) l.length)) (pySlice l t (min (t + B) l.length)))
        (crossPairs (pySlice l s (min (s + B) l.length)) l) := by
    intro s _
    have h1 := crossPairs_flatten_right_perm (pySlice l s (min (s + B) l.length))
      ((pyRange 0 l.length B).map fun t => pySlice l t (min (t + B) l.length))
    rw [hflat] at h1
    rw [List.flatMap_map] at h1
    exact h1.symm
  refine (perm_flatMap_congr _ _ _ hinner).trans ?_
  have h2 := crossPairs_flatten_left
    ((pyRange 0 l.length B).map fun s => pySlice l s (min (s + B) l.length)) l
  rw [hflat, List.flatMap_map] at h2
  rw [h2]

/-- C1: for ordered locations of length N ≥ 0 and batch bound B ≥ 1, the
partitioner produces ceil(N/B) * ceil(N/B) SubQueries from contiguous
chunks of size ≤ B, the multiset of (origin_batch × destination_batch)
index pairs is a permutation of the Nodup enumeration of all ordered pairs
in [0, N)², hence covers each exactly once, and N = 0 yields the empty
sequence. -/
theorem partitioner_grid_covers_exactly_once (n B : Nat) (hB : 1 ≤ B) :
    (makeSubQueries (List.range n) B).length = ((n + B - 1) / B) * ((n + B - 1) / B)
    ∧ List.Perm (subQueryPairs (makeSubQueries (List.range n) B))
        (crossPairs (List.range n) (List.range n))
    ∧ (∀ p : Nat × Nat, p ∈ crossPairs (List.range n) (List.range n)
        ↔ (p.1 < n ∧ p.2 < n))
    ∧ (crossPairs (List.range n) (List.range n)).Nodup
    ∧ (n = 0 → makeSubQueries (List.range n) B = []) := by
  refine ⟨?_, ?_, ?_, ?_, ?_⟩
  · have := length_makeSubQueries (List.range n) B hB
    simpa using this
  · exact subQueryPairs_perm (List.range n) B hB
  · intro p
    rw [mem_crossPairs]
    simp [List.mem_range]
  · exact nodup_crossPairs (List.nodup_range n) (List.nodup_range n)
  · intro hn
    subst hn
    simp only [makeSubQueries, List.length_range]
    rw [pyRange_of_ge (by omega)]
    simp

theorem partitioner_grid_covers_exactly_once_witness :
    1 ≤ 3 ∧
    ((makeSubQueries (List.range 7) 3).length = ((7 + 3 - 1) / 3) * ((7 + 3 - 1) / 3)
    ∧ List.Perm (subQueryPairs (makeSubQueries (List.range 7) 3))
        (crossPairs (List.range 7) (List.range 7))
    ∧ (∀ p : Nat × Nat, p ∈ crossPairs (List.range 7) (List.range 7)
        ↔ (p.1 < 7 ∧ p.2 < 7))
    ∧ (crossPairs (List.range 7) (List.range 7)).Nodup
    ∧ (7 = 0 → makeSubQueries (List.range 7) 3 = [])) :=
  ⟨by decide, partitioner_grid_covers_exactly_once 7 3 (by decide)⟩

/-- C6: every SubQuery the partitioner produces at the program constants
(BATCH_SIZE = 10, element limit 100) has origin and destination batches of
length at most 10 and an element product of at most 100. -/
theorem subquery_batch_bounds (locations : List Location) (sq : SubQuery Location)
    (h : sq ∈ makeSubQueries locations BATCH_SIZE) :
    sq.origin_batch.length ≤ 10 ∧ sq.destination_batch.length ≤ 10
    ∧ sq.origin_batch.length * sq.destination_batch.length ≤ 100 := by
  obtain ⟨s, t, ho, hd⟩ := mem_makeSubQueries h
  have h1 : sq.origin_batch.length ≤ 10 := by
    rw [ho]
    exact length_pySlice_le locations s BATCH_SIZE
  have h2 : sq.destination_batch.length ≤ 10 := by
    rw [hd]
    exact length_pySlice_le locations t BATCH_SIZE
  exact ⟨h1, h2, le_trans (Nat.mul_le_mul h1 h2) (by omega)⟩

theorem subquery_batch_bounds_witness :
    (SubQuery.mk [locA, locB] [locA, locB] ∈ makeSubQueries [locA, locB] BATCH_SIZE)
    ∧ ((SubQuery.mk [locA, locB] [locA, locB] : SubQuery Location).origin_batch.length ≤ 10
      ∧ (SubQuery.mk [locA, locB] [locA, locB] : SubQuery Location).destination_batch.length ≤ 10
      ∧ (SubQuery.mk [locA, locB] [locA, locB] : SubQuery Location).origin_batch.length
        * (SubQuery.mk [locA, locB] [locA, locB] : SubQuery Location).destination_batch.length ≤ 100) :=
  ⟨by decide, subquery_batch_bounds [locA, locB]
    (SubQuery.mk [locA, locB] [locA, locB]) (by decide)⟩

theorem dkeys_dinsert (k : String) (v : RouteInfo) (d : RouteCache) :
    dkeys (dinsert k v d) = if k ∈ dkeys d then dkeys d else dkeys d ++ [k] := by
  unfold dinsert
  by_cases h : k ∈ dkeys d
  · simp only [h, if_true]
    unfold dkeys
    rw [List.map_map]
    apply List.map_congr_left
    intro p hp
    by_cases hp1 : p.1 = k
    · simp [hp1]
    · simp [hp1]
  · rw [if_neg h, if_neg h]
    simp [dkeys]

theorem mem_dkeys_dinsert (k : String) (v : RouteInfo) (d : RouteCache) (s : String) :
    s ∈ dkeys (dinsert k v d) ↔ s ∈ dkeys d ∨ s = k := by
  rw [dkeys_dinsert]
  by_cases h : k ∈ dkeys d
  · simp only [h, if_true]
    exact ⟨Or.inl, fun hs => hs.elim id fun he => he ▸ h⟩
  · simp [h]

theorem nodup_dkeys_dinsert (k : String) (v : RouteInfo) (d : RouteCache)
    (h : (dkeys d).Nodup) : (dkeys (dinsert k v d)).Nodup := by
  rw [dkeys_dinsert]
  by_cases hm : k ∈ dkeys d
  · simpa [hm] using h
  · simp only [hm, if_false]
    refine h.append (List.nodup_singleton k) ?_
    intro a ha hb
    simp only [List.mem_singleton] at hb
    exact hm (hb ▸ ha)

theorem length_dinsert (k : String) (v : RouteInfo) (d : RouteCache) :
    (dinsert k v d).length = if k ∈ dkeys d then d.length else d.length + 1 := by
  unfold dinsert
  by_cases h : k ∈ dkeys d
  · simp [h]
  · simp [h]

theorem length_le_length_dinsert (k : String) (v : RouteInfo) (d : RouteCache) :
    d.length ≤ (dinsert k v d).length := by
  rw [length_dinsert]
  by_cases h : k ∈ dkeys d
  · simp [h]
  · simp [h]

theorem find?_cons_key (q : String × RouteInfo) (d : RouteCache) (k : String) :
    ((q :: d).find? fun p => p.1 == k)
      = if q.1 = k then some q else d.find? fun p => p.1 == k := by
  by_cases hq : q.1 = k
  · simp [List.find?, hq]
  · have hb : (q.1 == k) = false := beq_eq_false_iff_ne.mpr hq
    simp [List.find?, hq, hb]

theorem find?_map_replace (d : RouteCache) (k : String) (v : RouteInfo)
    (hmem : k ∈ dkeys d) :
    ((d.map fun p => if p.1 = k then (k, v) else p).find? fun p => p.1 == k)
      = some (k, v) := by
  induction d with
  | nil => simp [dkeys] at hmem
  | cons q d ih =>
    by_cases hq : q.1 = k
    · simp only [List.map_cons, hq, if_true]
      rw [find?_cons_key]
      simp
    · simp only [List.map_cons, hq, if_false]
      rw [find?_cons_key, if_neg hq]
      apply ih
      simp only [dkeys, List.map_cons, List.mem_cons] at hmem
      exact hmem.resolve_left fun he => hq he.symm

theorem find?_append_new (d : RouteCache) (k : String) (v : RouteInfo)
    (hmem : k ∉ dkeys d) :
    ((d ++ [(k, v)]).find? fun p => p.1 == k) = some (k, v) := by
  induction d with
  | nil => simp [List.find?]
  | cons q d ih =>
    have hq : q.1 ≠ k := by
      intro he
      exact hmem (by simp [dkeys, he])
    rw [List.cons_append, find?_cons_key, if_neg hq]
    exact ih fun hm => hmem (by simp [dkeys] at hm ⊢; exact Or.inr hm)

theorem dget_dinsert_self (k : String) (v : RouteInfo) (d : RouteCache) :
    dget k (dinsert k v d) = some v := by
  unfold dinsert dget
  by_cases h : k ∈ dkeys d
  · simp only [h, if_true]
    rw [find?_map_replace d k v h]
    rfl
  · simp only [h, if_false]
    rw [find?_append_new d k v h]
    rfl

theorem find?_map_replace_ne (d : RouteCache) (k k2 : String) (v : RouteInfo)
    (h : k2 ≠ k) :
    ((d.map fun p => if p.1 = k then (k, v) else p).find? fun p => p.1 == k2)
      = d.find? fun p => p.1 == k2 := by
  induction d with
  | nil => rfl
  | cons q d ih =>
    by_cases hq : q.1 = k
    · simp only [List.map_cons, hq, if_true]
      rw [find?_cons_key, find?_cons_key]
      rw [if_neg (show ¬ ((k, v) : String × RouteInfo).1 = k2 from fun he => h he.symm),
        if_neg (show ¬ q.1 = k2 from hq ▸ fun he => h he.symm)]
      exact ih
    · simp only [List.map_cons, hq, if_false]
      rw [find?_cons_key, find?_cons_key]
      by_cases hq2 : q.1 = k2
      · rw [if_pos hq2, if_pos hq2]
      · rw [if_neg hq2, if_neg hq2]
        exact ih

theorem dget_dinsert_ne (k k2 : String) (v : RouteInfo) (d : RouteCache)
    (h : k2 ≠ k) : dget k2 (dinsert k v d) = dget k2 d := by
  unfold dinsert dget
  by_cases hm : k ∈ dkeys d
  · simp only [hm, if_true]
    rw [find?_map_replace_ne d k k2 v h]
  · simp only [hm, if_false]
    rw [List.find?_append]
    have hsingle : (([((k, v) : String × RouteInfo)]).find? fun p => p.1 == k2) = none := by
      rw [find?_cons_key, if_neg (show ¬ k = k2 from fun he => h he.symm)]
      rfl
    rw [hsingle]
    simp

theorem dget_eq_of_mem {d : RouteCache} {p : String × RouteInfo}
    (hnd : (dkeys d).Nodup) (hp : p ∈ d) : dget p.1 d = some p.2 := by
  induction d with
  | nil => simp at hp
  | cons q d ih =>
    simp only [dkeys, List.map_cons, List.nodup_cons] at hnd
    rcases List.mem_cons.mp hp with rfl | hp2
    · unfold dget
      rw [find?_cons_key, if_pos rfl]
      rfl
    · have hq : q.1 ≠ p.1 := by
        intro he
        exact hnd.1 (he ▸ List.mem_map_of_mem Prod.fst hp2)
      unfold dget
      rw [find?_cons_key, if_neg hq]
      exact ih hnd.2 hp2

theorem dinsert_same (k : String) (v : RouteInfo) (d : RouteCache)
    (hnd : (dkeys d).Nodup) (hget : dget k d = some v) : dinsert k v d = d := by
  have hmem : k ∈ dkeys d := by
    unfold dget at hget
    rcases hf : d.find? fun p => p.1 == k with _ | p
    · rw [hf] at hget
      simp at hget
    · have hp := List.find?_some hf
      have hpd := List.mem_of_find?_eq_some hf
      simp only [beq_iff_eq] at hp
      exact hp ▸ List.mem_map_of_mem Prod.fst hpd
  unfold dinsert
  simp only [hmem, if_true]
  have hid : ∀ p ∈ d, (if p.1 = k then (k, v) else p) = p := by
    intro p hp
    by_cases hp1 : p.1 = k
    · have := dget_eq_of_mem hnd hp
      rw [hp1, hget] at this
      have hv : p.2 = v := by
        injection this with h2
        exact h2.symm
      simp only [hp1, if_true]
      rw [← hp1, ← hv]
    · simp [hp1]
  rw [List.map_congr_left hid]
  simp

theorem dupdate_cons (d : RouteCache) (k : String) (v : RouteInfo) (r : RouteCache) :
    dupdate d ((k, v) :: r) = dupdate (dinsert k v d) r := rfl

theorem mem_dkeys_dupdate (d r : RouteCache) (s : String) :
    s ∈ dkeys (dupdate d r) ↔ s ∈ dkeys d ∨ s ∈ dkeys r := by
  induction r generalizing d with
  | nil => simp [dupdate, dkeys]
  | cons p r ih =>
    obtain ⟨k, v⟩ := p
    rw [dupdate_cons, ih, mem_dkeys_dinsert]
    simp only [dkeys, List.map_cons, List.mem_cons]
    tauto

theorem nodup_dkeys_dupdate (d r : RouteCache) (h : (dkeys d).Nodup) :
    (dkeys (dupdate d r)).Nodup := by
  induction r generalizing d with
  | nil => exact h
  | cons p r ih =>
    obtain ⟨k, v⟩ := p
    rw [dupdate_cons]
    exact ih _ (nodup_dkeys_dinsert k v d h)

theorem length_le_length_dupdate (d r : RouteCache) :
    d.length ≤ (dupdate d r).length := by
  induction r generalizing d with
  | nil => exact Nat.le_refl _
  | cons p r ih =>
    obtain ⟨k, v⟩ := p
    rw [dupdate_cons]
    exact le_trans (length_le_length_dinsert k v d) (ih _)

theorem dget_dupdate_not_mem (d r : RouteCache) (k : String)
    (h : k ∉ dkeys r) : dget k (dupdate d r) = dget k d := by
  induction r generalizing d with
  | nil => rfl
  | cons p r ih =>
    obtain ⟨k2, v⟩ := p
    have hk2 : k ≠ k2 := by
      intro he
      exact h (by simp [dkeys, he])
    have hr : k ∉ dkeys r := fun hm => h (by simp [dkeys] at hm ⊢; exact Or.inr hm)
    rw [dupdate_cons, ih _ hr, dget_dinsert_ne k2 k v d hk2]

theorem dupdate_idem (d r : RouteCache) (hd : (dkeys d).Nodup)
    (hr : (dkeys r).Nodup) : dupdate (dupdate d r) r = dupdate d r := by
  induction r generalizing d with
  | nil => rfl
  | cons p r ih =>
    obtain ⟨k, v⟩ := p
    simp only [dkeys, List.map_cons, List.nodup_cons] at hr
    rw [dupdate_cons, dupdate_cons]
    have hD : dget k (dupdate (dinsert k v d) r) = some v := by
      rw [dget_dupdate_not_mem _ _ _ hr.1]
      exact dget_dinsert_self k v d
    have hNod : (dkeys (dupdate (dinsert k v d) r)).Nodup :=
      nodup_dkeys_dupdate _ _ (nodup_dkeys_dinsert k v d hd)
    rw [dinsert_same k v _ hNod hD]
    exact ih _ (nodup_dkeys_dinsert k v d hd) hr.2

theorem mem_dinsert {k : String} {v : RouteInfo} {d : RouteCache}
    {b : String × RouteInfo} (h : b ∈ dinsert k v d) : b ∈ d ∨ b = (k, v) := by
  unfold dinsert at h
  by_cases hm : k ∈ dkeys d
  · rw [if_pos hm] at h
    obtain ⟨p, hp, he⟩ := List.mem_map.mp h
    by_cases hp1 : p.1 = k
    · rw [if_pos hp1] at he
      exact Or.inr he.symm
    · rw [if_neg hp1] at he
      exact Or.inl (he ▸ hp)
  · rw [if_neg hm] at h
    rcases List.mem_append.mp h with h1 | h1
    · exact Or.inl h1
    · exact Or.inr (List.mem_singleton.mp h1)

theorem processElements_some_shape {origin : Location} {dests : List Location} :
    ∀ {elems : List MatrixElement} {j : Nat} {acc out : RouteCache × List FailureNote},
      processElements origin dests elems j acc = some out →
      ∀ jj, jj < elems.length → j + jj < dests.length := by
  intro elems
  induction elems with
  | nil =>
    intro j acc out _ jj hjj
    simp at hjj
  | cons e rest ih =>
    intro j acc out h jj hjj
    rw [processElements] at h
    rcases hd : dests[j]? with _ | destination
    · rw [hd] at h
      simp at h
    · rw [hd] at h
      simp only at h
      have hjlt : j < dests.length := by
        by_contra hge
        rw [List.getElem?_eq_none (by omega)] at hd
        exact Option.noConfusion hd
      match jj with
      | 0 => omega
      | jj + 1 =>
        have hrec : ∀ acc2, processElements origin dests rest (j + 1) acc2 = some out →
            j + (jj + 1) < dests.length := by
          intro acc2 h2
          have := ih h2 jj (by simpa using hjj)
          omega
        by_cases hself : origin.id = destination.id
        · rw [if_pos hself] at h
          exact hrec _ h
        · rw [if_neg hself] at h
          by_cases hok : e.status = "OK"
          · rw [if_pos hok] at h
            exact hrec _ h
          · rw [if_neg hok] at h
            exact hrec _ h

theorem processRows_some_shape {origins dests : List Location} :
    ∀ {rows : List MatrixRow} {i : Nat} {acc out : RouteCache × List FailureNote},
      processRows origins dests rows i acc = some out →
      (∀ ii, ii < rows.length → i + ii < origins.length)
      ∧ (∀ row ∈ rows, row.elements.length ≤ dests.length) := by
  intro rows
  induction rows with
  | nil =>
    intro i acc out _
    constructor
    · intro ii hii
      simp at hii
    · intro row hrow
      simp at hrow
  | cons row rest ih =>
    intro i acc out h
    rw [processRows] at h
    rcases ho : origins[i]? with _ | origin
    · rw [ho] at h
      simp at h
    · rw [ho] at h
      simp only at h
      have hilt : i < origins.length := by
        by_contra hge
        rw [List.getElem?_eq_none (by omega)] at ho
        exact Option.noConfusion ho
      rcases hpe : processElements origin dests row.elements 0 acc with _ | acc2
      · rw [hpe] at h
        simp at h
      · rw [hpe] at h
        obtain ⟨ih1, ih2⟩ := ih h
        constructor
        · intro ii hii
          match ii with
          | 0 => omega
          | ii + 1 =>
            have := ih1 ii (by simpa using hii)
            omega
        · intro r hr
          rcases List.mem_cons.mp hr with rfl | hr2
          · rcases Nat.eq_zero_or_pos r.elements.length with hz | hpos
            · omega
            · have := processElements_some_shape hpe (r.elements.length - 1) (by omega)
              omega
          · exact ih2 r hr2

theorem processElements_isSome (origin : Location) (dests : List Location) :
    ∀ (elems : List MatrixElement) (j : Nat) (acc : RouteCache × List FailureNote),
      j + elems.length ≤ dests.length →
      ∃ out, processElements origin dests elems j acc = some out := by
  intro elems
  induction elems with
  | nil =>
    intro j acc _
    exact ⟨acc, rfl⟩
  | cons e rest ih =>
    intro j acc hlen
    have hj : j < dests.length := by
      simp only [List.length_cons] at hlen
      omega
    rw [processElements, List.getElem?_eq_getElem hj]
    simp only
    have hrec : j + 1 + rest.length ≤ dests.length := by
      simp only [List.length_cons] at hlen
      omega
    by_cases hself : origin.id = dests[j].id
    · rw [if_pos hself]
      exact ih (j + 1) acc hrec
    · rw [if_neg hself]
      by_cases hok : e.status = "OK"
      · rw [if_pos hok]
        exact ih (j + 1) _ hrec
      · rw [if_neg hok]
        exact ih (j + 1) _ hrec

theorem processRows_isSome (origins dests : List Location) :
    ∀ (rows : List MatrixRow) (i : Nat) (acc : RouteCache × List FailureNote),
      i + rows.length ≤ origins.length →
      (∀ row ∈ rows, row.elements.length ≤ dests.length) →
      ∃ out, processRows origins dests rows i acc = some out := by
  intro rows
  induction rows with
  | nil =>
    intro i acc _ _
    exact ⟨acc, rfl⟩
  | cons row rest ih =>
    intro i acc hlen helems
    have hi : i < origins.length := by
      simp only [List.length_cons] at hlen
      omega
    rw [processRows, List.getElem?_eq_getElem hi]
    simp only
    obtain ⟨acc2, hacc2⟩ := processElements_isSome origins[i] dests row.elements 0 acc
      (by simpa using helems row (by simp))
    rw [hacc2]
    exact ih (i + 1) acc2 (by simp only [List.length_cons] at hlen; omega)
      (fun r hr => helems r (by simp [hr]))

/-- C10: the aggregator indexes origins by row position and destinations by
element position; it completes without an out-of-range access exactly when
the response has at most one row per origin and at most one element per
destination in every row.  The backward direction is the safety guarantee,
the forward direction shows the shape precondition is necessary: any
response with more rows than origins, or a row with more elements than
destinations, makes the indexing fail (the run raises IndexError, modelled
as none). -/
theorem aggregation_shape_safety (data : MatrixResponse)
    (origins dests : List Location) :
    (∃ pr, process_matrix_response data origins dests = some pr)
      ↔ (data.rows.length ≤ origins.length
          ∧ ∀ row ∈ data.rows, row.elements.length ≤ dests.length) := by
  constructor
  · rintro ⟨pr, hpr⟩
    unfold process_matrix_response at hpr
    obtain ⟨h1, h2⟩ := processRows_some_shape hpr
    refine ⟨?_, h2⟩
    rcases Nat.eq_zero_or_pos data.rows.length with hz | hpos
    · omega
    · have := h1 (data.rows.length - 1) (by omega)
      omega
  · rintro ⟨h1, h2⟩
    unfold process_matrix_response
    exact processRows_isSome origins dests data.rows 0 ([], []) (by omega) h2

theorem aggregation_shape_safety_witness :
    (∃ pr, process_matrix_response
      ⟨"OK", [⟨[⟨"OK", 5000, 60⟩, ⟨"OK", 7000, 80⟩]⟩]⟩ [locA] [locA, locB] = some pr)
    ↔ ((⟨"OK", [⟨[⟨"OK", 5000, 60⟩, ⟨"OK", 7000, 80⟩]⟩]⟩ : MatrixResponse).rows.length ≤ [locA].length
        ∧ ∀ row ∈ (⟨"OK", [⟨[⟨"OK", 5000, 60⟩, ⟨"OK", 7000, 80⟩]⟩]⟩ : MatrixResponse).rows,
            row.elements.length ≤ [locA, locB].length) :=
  aggregation_shape_safety ⟨"OK", [⟨[⟨"OK", 5000, 60⟩, ⟨"OK", 7000, 80⟩]⟩]⟩ [locA] [locA, locB]

theorem processElements_spec {origin : Location} {dests : List Location} :
    ∀ {elems : List MatrixElement} {j : Nat} {acc out : RouteCache × List FailureNote},
      processElements origin dests elems j acc = some out →
      (∀ b ∈ out.1, b ∈ acc.1 ∨ ∃ (jj : Nat) (e : MatrixElement) (destination : Location),
          elems[jj]? = some e ∧ dests[j + jj]? = some destination ∧
          origin.id ≠ destination.id ∧ e.status = "OK" ∧
          b = (rkey origin destination,
            { distance_km_tenths := round1 e.distance, duration_seconds := e.duration }))
      ∧ (∀ w ∈ out.2, w ∈ acc.2 ∨ ∃ (jj : Nat) (e : MatrixElement) (destination : Location),
          elems[jj]? = some e ∧ dests[j + jj]? = some destination ∧
          origin.id ≠ destination.id ∧ e.status ≠ "OK" ∧
          w = { origin_name := origin.nombre.take 20
                destination_name := destination.nombre.take 20
                element_status := e.status }) := by
  intro elems
  induction elems with
  | nil =>
    intro j acc out h
    rw [processElements] at h
    injection h with h
    subst h
    exact ⟨fun b hb => Or.inl hb, fun w hw => Or.inl hw⟩
  | cons e rest ih =>
    intro j acc out h
    rw [processElements] at h
    rcases hd : dests[j]? with _ | destination
    · rw [hd] at h
      simp at h
    · rw [hd] at h
      simp only at h
      have shift : ∀ (P : Prop) (jj : Nat) (e2 : MatrixElement) (d2 : Location),
          rest[jj]? = some e2 → dests[j + 1 + jj]? = some d2 →
          ((e :: rest)[jj + 1]? = some e2 ∧ dests[j + (jj + 1)]? = some d2) := by
        intro _ jj e2 d2 he2 hd2
        constructor
        · simpa using he2
        · have : j + (jj + 1) = j + 1 + jj := by omega
          rw [this]
          exact hd2
      by_cases hself : origin.id = destination.id
      · rw [if_pos hself] at h
        obtain ⟨ih1, ih2⟩ := ih h
        constructor
        · intro b hb
          rcases ih1 b hb with hacc | ⟨jj, e2, d2, he2, hd2, hne, hok, hb2⟩
          · exact Or.inl hacc
          · exact Or.inr ⟨jj + 1, e2, d2, (shift True jj e2 d2 he2 hd2).1,
              (shift True jj e2 d2 he2 hd2).2, hne, hok, hb2⟩
        · intro w hw
          rcases ih2 w hw with hacc | ⟨jj, e2, d2, he2, hd2, hne, hok, hw2⟩
          · exact Or.inl hacc
          · exact Or.inr ⟨jj + 1, e2, d2, (shift True jj e2 d2 he2 hd2).1,
              (shift True jj e2 d2 he2 hd2).2, hne, hok, hw2⟩
      · rw [if_neg hself] at h
        by_cases hok : e.status = "OK"
        · rw [if_pos hok] at h
          obtain ⟨ih1, ih2⟩ := ih h
          constructor
          · intro b hb
            rcases ih1 b hb with hacc | ⟨jj, e2, d2, he2, hd2, hne, hok2, hb2⟩
            · rcases mem_dinsert hacc with hin | rfl
              · exact Or.inl hin
              · exact Or.inr ⟨0, e, destination, by simp, by simpa using hd,
                  hself, hok, rfl⟩
            · exact Or.inr ⟨jj + 1, e2, d2, (shift True jj e2 d2 he2 hd2).1,
                (shift True jj e2 d2 he2 hd2).2, hne, hok2, hb2⟩
          · intro w hw
            rcases ih2 w hw with hacc | ⟨jj, e2, d2, he2, hd2, hne, hok2, hw2⟩
            · exact Or.inl hacc
            · exact Or.inr ⟨jj + 1, e2, d2, (shift True jj e2 d2 he2 hd2).1,
                (shift True jj e2 d2 he2 hd2).2, hne, hok2, hw2⟩
        · rw [if_neg hok] at h
          obtain ⟨ih1, ih2⟩ := ih h
          constructor
          · intro b hb
            rcases ih1 b hb with hacc | ⟨jj, e2, d2, he2, hd2, hne, hok2, hb2⟩
            · exact Or.inl hacc
            · exact Or.inr ⟨jj + 1, e2, d2, (shift True jj e2 d2 he2 hd2).1,
                (shift True jj e2 d2 he2 hd2).2, hne, hok2, hb2⟩
          · intro w hw
            rcases ih2 w hw with hacc | ⟨jj, e2, d2, he2, hd2, hne, hok2, hw2⟩
            · rcases List.mem_append.mp hacc with hin | hin
              · exact Or.inl hin
              · exact Or.inr ⟨0, e, destination, by simp, by simpa using hd,
                  hself, hok, List.mem_singleton.mp hin⟩
            · exact Or.inr ⟨jj + 1, e2, d2, (shift True jj e2 d2 he2 hd2).1,
                (shift True jj e2 d2 he2 hd2).2, hne, hok2, hw2⟩

theorem processRows_spec {origins dests : List Location} :
    ∀ {rows : List MatrixRow} {i : Nat} {acc out : RouteCache × List FailureNote},
      processRows origins dests rows i acc = some out →
      (∀ b ∈ out.1, b ∈ acc.1 ∨ ∃ (ii : Nat) (row : MatrixRow) (jj : Nat)
          (e : MatrixElement) (origin destination : Location),
          rows[ii]? = some row ∧ row.elements[jj]? = some e ∧
          origins[i + ii]? = some origin ∧ dests[jj]? = some destination ∧
          origin.id ≠ destination.id ∧ e.status = "OK" ∧
          b = (rkey origin destination,
            { distance_km_tenths := round1 e.distance, duration_seconds := e.duration }))
      ∧ (∀ w ∈ out.2, w ∈ acc.2 ∨ ∃ (ii : Nat) (row : MatrixRow) (jj : Nat)
          (e : MatrixElement) (origin destination : Location),
          rows[ii]? = some row ∧ row.elements[jj]? = some e ∧
          origins[i + ii]? = some origin ∧ dests[jj]? = some destination ∧
          origin.id ≠ destination.id ∧ e.status ≠ "OK" ∧
          w = { origin_name := origin.nombre.take 20
                destination_name := destination.nombre.take 20
                element_status := e.status }) := by
  intro rows
  induction rows with
  | nil =>
    intro i acc out h
    rw [processRows] at h
    injection h with h
    subst h
    exact ⟨fun b hb => Or.inl hb, fun w hw => Or.inl hw⟩
  | cons row rest ih =>
    intro i acc out h
    rw [processRows] at h
    rcases ho : origins[i]? with _ | origin
    · rw [ho] at h
      simp at h
    · rw [ho] at h
      simp only at h
      rcases hpe : processElements origin dests row.elements 0 acc with _ | acc2
      · rw [hpe] at h
        simp at h
      · rw [hpe] at h
        obtain ⟨pe1, pe2⟩ := processElements_spec hpe
        obtain ⟨ih1, ih2⟩ := ih h
        have shift : ∀ (ii : Nat), i + 1 + ii = i + (ii + 1) := by omega
        constructor
        · intro b hb
          rcases ih1 b hb with hacc2 | ⟨ii, r2, jj, e2, o2, d2, hr2, he2, ho2, hd2, hne, hok, hb2⟩
          · rcases pe1 b hacc2 with hacc | ⟨jj, e2, d2, he2, hd2, hne, hok, hb2⟩
            · exact Or.inl hacc
            · exact Or.inr ⟨0, row, jj, e2, origin, d2, by simp, he2,
                by simpa using ho, by simpa using hd2, hne, hok, hb2⟩
          · exact Or.inr ⟨ii + 1, r2, jj, e2, o2, d2, by simpa using hr2, he2,
              by rw [← shift ii]; exact ho2, hd2, hne, hok, hb2⟩
        · intro w hw
          rcases ih2 w hw with hacc2 | ⟨ii, r2, jj, e2, o2, d2, hr2, he2, ho2, hd2, hne, hok, hw2⟩
          · rcases pe2 w hacc2 with hacc | ⟨jj, e2, d2, he2, hd2, hne, hok, hw2⟩
            · exact Or.inl hacc
            · exact Or.inr ⟨0, row, jj, e2, origin, d2, by simp, he2,
                by simpa using ho, by simpa using hd2, hne, hok, hw2⟩
          · exact Or.inr ⟨ii + 1, r2, jj, e2, o2, d2, by simpa using hr2, he2,
              by rw [← shift ii]; exact ho2, hd2, hne, hok, hw2⟩

/-- C4: every binding the aggregator writes comes from an OK element at
matching positions, with distance_km = round(distance_meters / 1000, 1)
(over exact rationals) and duration_seconds taken verbatim, at the key
"{origin_id}_{destination_id}". -/
theorem entry_value_formulas (data : MatrixResponse) (origins dests : List Location)
    (pr : RouteCache × List FailureNote)
    (h : process_matrix_response data origins dests = some pr) :
    (∀ b ∈ pr.1, FromOkElement data origins dests b)
    ∧ ∀ m : Nat, ((round1 m : ℚ) / 10 = (roundHalfEven ((m : ℚ) / 100) : ℚ) / 10) := by
  constructor
  · intro b hb
    unfold process_matrix_response at h
    obtain ⟨h1, _⟩ := processRows_spec h
    rcases h1 b hb with hacc | ⟨ii, row, jj, e, o, d, hr, he, ho, hd, hne, hok, hb2⟩
    · simp at hacc
    · exact ⟨ii, row, jj, e, o, d, hr, he, by simpa using ho, hd, hne, hok,
        by rw [hb2], by rw [hb2]⟩
  · intro m
    congr 1
    exact_mod_cast round1_matches_rational_rounding m

theorem entry_value_formulas_witness :
    (∀ b ∈ ([(("a_b" : String), ({ distance_km_tenths := 70, duration_seconds := 80 } : RouteInfo))] : RouteCache),
      FromOkElement ⟨"OK", [⟨[⟨"OK", 5000, 60⟩, ⟨"OK", 7000, 80⟩]⟩]⟩ [locA] [locA, locB] b)
    ∧ ∀ m : Nat, ((round1 m : ℚ) / 10 = (roundHalfEven ((m : ℚ) / 100) : ℚ) / 10) :=
  entry_value_formulas ⟨"OK", [⟨[⟨"OK", 5000, 60⟩, ⟨"OK", 7000, 80⟩]⟩]⟩ [locA] [locA, locB]
    ([(("a_b" : String), ({ distance_km_tenths := 70, duration_seconds := 80 } : RouteInfo))], [])
    (by decide)

/-- C5: aggregation never produces a cache entry from a pair with equal
origin and destination ids — every binding stems from a non-self pair at
matching positions — and every warning line also stems from a non-self
pair, so a self pair contributes neither a cache entry nor a failure
record, whatever its reported status. -/
theorem self_pairs_skipped (data : MatrixResponse) (origins dests : List Location)
    (pr : RouteCache × List FailureNote)
    (h : process_matrix_response data origins dests = some pr) :
    (∀ b ∈ pr.1, ∃ (i j : Nat) (origin destination : Location),
        origins[i]? = some origin ∧ dests[j]? = some destination ∧
        origin.id ≠ destination.id ∧ b.1 = rkey origin destination)
    ∧ (∀ w ∈ pr.2, FromFailedElement data origins dests w) := by
  unfold process_matrix_response at h
  obtain ⟨h1, h2⟩ := processRows_spec h
  constructor
  · intro b hb
    rcases h1 b hb with hacc | ⟨ii, row, jj, e, o, d, hr, he, ho, hd, hne, hok, hb2⟩
    · simp at hacc
    · exact ⟨ii, jj, o, d, by simpa using ho, hd, hne, by rw [hb2]⟩
  · intro w hw
    rcases h2 w hw with hacc | ⟨ii, row, jj, e, o, d, hr, he, ho, hd, hne, hok, hw2⟩
    · simp at hacc
    · exact ⟨ii, row, jj, e, o, d, hr, he, by simpa using ho, hd, hne, hok, hw2⟩

theorem self_pairs_skipped_witness :
    (∀ b ∈ (([] : RouteCache)),
      ∃ (i j : Nat) (origin destination : Location),
        ([locA] : List Location)[i]? = some origin
        ∧ ([locA, locB] : List Location)[j]? = some destination
        ∧ origin.id ≠ destination.id ∧ b.1 = rkey origin destination)
    ∧ (∀ w ∈ [(⟨"Alpha", "Beta", "NOPE"⟩ : FailureNote)],
        FromFailedElement ⟨"OK", [⟨[⟨"OK", 5, 5⟩, ⟨"NOPE", 0, 0⟩]⟩]⟩ [locA] [locA, locB] w) :=
  self_pairs_skipped ⟨"OK", [⟨[⟨"OK", 5, 5⟩, ⟨"NOPE", 0, 0⟩]⟩]⟩ [locA] [locA, locB]
    ([], [⟨"Alpha", "Beta", "NOPE"⟩])
    (by decide)

theorem processElements_nodup {origin : Location} {dests : List Location} :
    ∀ {elems : List MatrixElement} {j : Nat} {acc out : RouteCache × List FailureNote},
      processElements origin dests elems j acc = some out →
      (dkeys acc.1).Nodup → (dkeys out.1).Nodup := by
  intro elems
  induction elems with
  | nil =>
    intro j acc out h hn
    rw [processElements] at h
    injection h with h
    subst h
    exact hn
  | cons e rest ih =>
    intro j acc out h hn
    rw [processElements] at h
    rcases hd : dests[j]? with _ | destination
    · rw [hd] at h
      simp at h
    · rw [hd] at h
      simp only at h
      by_cases hself : origin.id = destination.id
      · rw [if_pos hself] at h
        exact ih h hn
      · rw [if_neg hself] at h
        by_cases hok : e.status = "OK"
        · rw [if_pos hok] at h
          exact ih h (nodup_dkeys_dinsert _ _ _ hn)
        · rw [if_neg hok] at h
          exact ih h hn

theorem processRows_nodup {origins dests : List Location} :
    ∀ {rows : List MatrixRow} {i : Nat} {acc out : RouteCache × List FailureNote},
      processRows origins dests rows i acc = some out →
      (dkeys acc.1).Nodup → (dkeys out.1).Nodup := by
  intro rows
  induction rows with
  | nil =>
    intro i acc out h hn
    rw [processRows] at h
    injection h with h
    subst h
    exact hn
  | cons row rest ih =>
    intro i acc out h hn
    rw [processRows] at h
    rcases ho : origins[i]? with _ | origin
    · rw [ho] at h
      simp at h
    · rw [ho] at h
      simp only at h
      rcases hpe : processElements origin dests row.elements 0 acc with _ | acc2
      · rw [hpe] at h
        simp at h
      · rw [hpe] at h
        exact ih h (processElements_nodup hpe hn)

theorem process_nodup {data : MatrixResponse} {origins dests : List Location}
    {pr : RouteCache × List FailureNote}
    (h : process_matrix_response data origins dests = some pr) :
    (dkeys pr.1).Nodup := by
  unfold process_matrix_response at h
  exact processRows_nodup h (by simp [dkeys])

/-- C7: aggregation is idempotent: for any starting cache (a Python dict,
so its keys are unique) and any successfully aggregated response, merging
the resulting routes dict twice with dict.update yields exactly the dict
obtained by merging it once. -/
theorem aggregation_idempotent (cache : RouteCache)
    (hn : (dkeys cache).Nodup) (data : MatrixResponse)
    (origins dests : List Location) (pr : RouteCache × List FailureNote)
    (h : process_matrix_response data origins dests = some pr) :
    dupdate (dupdate cache pr.1) pr.1 = dupdate cache pr.1 :=
  dupdate_idem cache pr.1 hn (process_nodup h)

theorem aggregation_idempotent_witness :
    dupdate (dupdate [(("k" : String), ({ distance_km_tenths := 1, duration_seconds := 2 } : RouteInfo))]
        [(("a_b" : String), ({ distance_km_tenths := 70, duration_seconds := 80 } : RouteInfo))])
      [(("a_b" : String), ({ distance_km_tenths := 70, duration_seconds := 80 } : RouteInfo))]
    = dupdate [(("k" : String), ({ distance_km_tenths := 1, duration_seconds := 2 } : RouteInfo))]
      [(("a_b" : String), ({ distance_km_tenths := 70, duration_seconds := 80 } : RouteInfo))] :=
  aggregation_idempotent
    [(("k" : String), ({ distance_km_tenths := 1, duration_seconds := 2 } : RouteInfo))]
    (by decide)
    ⟨"OK", [⟨[⟨"OK", 5000, 60⟩, ⟨"OK", 7000, 80⟩]⟩]⟩ [locA] [locA, locB]
    ([(("a_b" : String), ({ distance_km_tenths := 70, duration_seconds := 80 } : RouteInfo))], [])
    (by decide)

/-- C9: the accumulating cache grows monotonically across the request loop:
if the loop completes, every key present in the starting cache is present
in the final cache, and the cache size never decreases. -/
theorem cache_monotone (oracle : Nat → TransportOutcome) :
    ∀ (sqs : List (SubQuery Location)) (k0 : Nat) (cache final : RouteCache),
      runLoop oracle sqs k0 cache = .ok final →
      (∀ s ∈ dkeys cache, s ∈ dkeys final) ∧ cache.length ≤ final.length := by
  intro sqs
  induction sqs with
  | nil =>
    intro k0 cache final h
    rw [runLoop] at h
    injection h with h
    subst h
    exact ⟨fun s hs => hs, Nat.le_refl _⟩
  | cons sq rest ih =>
    intro k0 cache final h
    rw [runLoop] at h
    rcases hgd : get_distance_matrix (oracle k0) with e | od
    · rw [hgd] at h
      simp at h
    · rw [hgd] at h
      rcases od with _ | data
      · simp only at h
        exact ih (k0 + 1) cache final h
      · simp only at h
        rcases hpr : process_matrix_response data sq.origin_batch sq.destination_batch with _ | pr
        · rw [hpr] at h
          simp at h
        · rw [hpr] at h
          obtain ⟨ih1, ih2⟩ := ih (k0 + 1) (dupdate cache pr.1) final h
          constructor
          · intro s hs
            exact ih1 s ((mem_dkeys_dupdate cache pr.1 s).mpr (Or.inl hs))
          · exact le_trans (length_le_length_dupdate cache pr.1) ih2

theorem cache_monotone_witness :
    (∀ s ∈ dkeys [(("k" : String), ({ distance_km_tenths := 1, duration_seconds := 2 } : RouteInfo))],
      s ∈ dkeys [(("k" : String), ({ distance_km_tenths := 1, duration_seconds := 2 } : RouteInfo))])
    ∧ ([(("k" : String), ({ distance_km_tenths := 1, duration_seconds := 2 } : RouteInfo))] : RouteCache).length
      ≤ ([(("k" : String), ({ distance_km_tenths := 1, duration_seconds := 2 } : RouteInfo))] : RouteCache).length :=
  cache_monotone (fun _ => TransportOutcome.httpError 500)
    (makeSubQueries [locA, locB] BATCH_SIZE) 0
    [(("k" : String), ({ distance_km_tenths := 1, duration_seconds := 2 } : RouteInfo))]
    [(("k" : String), ({ distance_km_tenths := 1, duration_seconds := 2 } : RouteInfo))]
    (by rfl)

theorem processElements_ok_keys {origin : Location} {dests : List Location} :
    ∀ (elems : List MatrixElement) (j : Nat) (acc : RouteCache × List FailureNote),
      j + elems.length = dests.length →
      (∀ e ∈ elems, e.status = "OK") →
      ∃ out, processElements origin dests elems j acc = some out ∧
        out.2 = acc.2 ∧
        (∀ s, s ∈ dkeys out.1 ↔ s ∈ dkeys acc.1 ∨
          s ∈ (dests.drop j).filterMap fun d =>
            if origin.id = d.id then none else some (rkey origin d)) ∧
        ((dkeys acc.1).Nodup → (dkeys out.1).Nodup) := by
  intro elems
  induction elems with
  | nil =>
    intro j acc hlen _
    refine ⟨acc, rfl, rfl, ?_, fun hn => hn⟩
    intro s
    rw [List.drop_eq_nil_of_le (by simpa using Nat.le_of_eq hlen.symm)]
    simp
  | cons e rest ih =>
    intro j acc hlen hok
    have hj : j < dests.length := by
      simp only [List.length_cons] at hlen
      omega
    have hdrop : dests.drop j = dests[j] :: dests.drop (j + 1) :=
      List.drop_eq_getElem_cons hj
    rw [processElements, List.getElem?_eq_getElem hj]
    simp only
    have hlen2 : j + 1 + rest.length = dests.length := by
      simp only [List.length_cons] at hlen
      omega
    have hok2 : ∀ e2 ∈ rest, e2.status = "OK" := fun e2 he2 => hok e2 (by simp [he2])
    by_cases hself : origin.id = dests[j].id
    · rw [if_pos hself]
      obtain ⟨out, hout, hw, hmem, hnod⟩ := ih (j + 1) acc hlen2 hok2
      refine ⟨out, hout, hw, ?_, hnod⟩
      intro s
      rw [hmem s, hdrop, List.filterMap_cons]
      rw [if_pos hself]
    · rw [if_neg hself, if_pos (hok e (by simp))]
      obtain ⟨out, hout, hw, hmem, hnod⟩ := ih (j + 1)
        (dinsert (rkey origin dests[j])
          { distance_km_tenths := round1 e.distance, duration_seconds := e.duration }
          acc.1, acc.2) hlen2 hok2
      refine ⟨out, hout, hw, ?_, fun hn => hnod (nodup_dkeys_dinsert _ _ _ hn)⟩
      intro s
      rw [hmem s, hdrop, List.filterMap_cons, if_neg hself]
      simp only [List.mem_cons]
      rw [mem_dkeys_dinsert]
      tauto

theorem processRows_ok_keys {origins dests : List Location} :
    ∀ (rows : List MatrixRow) (i : Nat) (acc : RouteCache × List FailureNote),
      i + rows.length = origins.length →
      (∀ row ∈ rows, row.elements.length = dests.length
        ∧ ∀ e ∈ row.elements, e.status = "OK") →
      ∃ out, processRows origins dests rows i acc = some out ∧
        out.2 = acc.2 ∧
        (∀ s, s ∈ dkeys out.1 ↔ s ∈ dkeys acc.1 ∨
          s ∈ nonselfKeys (origins.drop i) dests) ∧
        ((dkeys acc.1).Nodup → (dkeys out.1).Nodup) := by
  intro rows
  induction rows with
  | nil =>
    intro i acc hlen _
    refine ⟨acc, rfl, rfl, ?_, fun hn => hn⟩
    intro s
    rw [List.drop_eq_nil_of_le (by simpa using Nat.le_of_eq hlen.symm)]
    simp [nonselfKeys, crossPairs]
  | cons row rest ih =>
    intro i acc hlen hrows
    have hi : i < origins.length := by
      simp only [List.length_cons] at hlen
      omega
    have hdrop : origins.drop i = origins[i] :: origins.drop (i + 1) :=
      List.drop_eq_getElem_cons hi
    rw [processRows, List.getElem?_eq_getElem hi]
    simp only
    obtain ⟨hrlen, hrok⟩ := hrows row (by simp)
    obtain ⟨acc2, hacc2, hw2, hmem2, hnod2⟩ :=
      processElements_ok_keys row.elements 0 acc (by simpa using hrlen) hrok
    rw [hacc2]
    obtain ⟨out, hout, hw, hmem, hnod⟩ := ih (i + 1) acc2
      (by simp only [List.length_cons] at hlen; omega)
      (fun r hr => hrows r (by simp [hr]))
    refine ⟨out, hout, by rw [hw, hw2], ?_, fun hn => hnod (hnod2 hn)⟩
    intro s
    rw [hmem s, hmem2 s, hdrop]
    have hcross : nonselfKeys (origins[i] :: origins.drop (i + 1)) dests
        = (dests.filterMap fun d =>
            if origins[i].id = d.id then none else some (rkey origins[i] d))
          ++ nonselfKeys (origins.drop (i + 1)) dests := by
      unfold nonselfKeys crossPairs
      rw [List.flatMap_cons, List.filterMap_append, List.filterMap_map]
      rfl
    rw [hcross]
    simp only [List.mem_append]
    tauto

theorem process_ok_keys {data : MatrixResponse} {origins dests : List Location}
    (h : OkShaped data origins dests) :
    ∃ pr, process_matrix_response data origins dests = some pr ∧
      pr.2 = [] ∧
      (∀ s, s ∈ dkeys pr.1 ↔ s ∈ nonselfKeys origins dests) ∧
      (dkeys pr.1).Nodup := by
  obtain ⟨hst, hlen, hrows⟩ := h
  obtain ⟨pr, hpr, hw, hmem, hnod⟩ :=
    processRows_ok_keys data.rows 0 ([], []) (by simpa using hlen) hrows
  refine ⟨pr, hpr, hw, ?_, hnod (by simp [dkeys])⟩
  intro s
  rw [hmem s]
  simp [dkeys]

theorem get_distance_matrix_recovered {o : TransportOutcome}
    (h : recoveredFailure o) : get_distance_matrix o = .ok none := by
  cases o with
  | raised => exact absurd h fun h2 => h2
  | httpError c => rfl
  | jsonResponse data =>
    have h2 : data.status ≠ "OK" := h
    simp only [get_distance_matrix]
    rw [if_pos h2]

theorem not_ok_of_recovered {o : TransportOutcome} {sq : SubQuery Location}
    (h : recoveredFailure o) : ¬ OkOutcome o sq := by
  cases o with
  | raised => exact fun h2 => h2
  | httpError c => exact fun h2 => h2
  | jsonResponse data =>
    intro h2
    have h3 : data.status ≠ "OK" := h
    have h4 : OkShaped data sq.origin_batch sq.destination_batch := h2
    exact h3 h4.1

theorem get_distance_matrix_ok {data : MatrixResponse} (hst : data.status = "OK") :
    get_distance_matrix (.jsonResponse data) = .ok (some data) := by
  simp only [get_distance_matrix]
  rw [if_neg]
  simp [hst]

theorem runLoop_mixed (oracle : Nat → TransportOutcome) :
    ∀ (sqs : List (SubQuery Location)) (k0 : Nat) (cache : RouteCache),
      (dkeys cache).Nodup →
      (∀ (k : Nat) (hk : k < sqs.length),
        recoveredFailure (oracle (k0 + k))
        ∨ OkOutcome (oracle (k0 + k)) (sqs.get ⟨k, hk⟩)) →
      ∃ final, runLoop oracle sqs k0 cache = .ok final ∧
        (dkeys final).Nodup ∧
        ∀ s, s ∈ dkeys final ↔ s ∈ dkeys cache ∨
          ∃ (k : Nat) (hk : k < sqs.length),
            OkOutcome (oracle (k0 + k)) (sqs.get ⟨k, hk⟩) ∧
            s ∈ nonselfKeys (sqs.get ⟨k, hk⟩).origin_batch
              (sqs.get ⟨k, hk⟩).destination_batch := by
  intro sqs
  induction sqs with
  | nil =>
    intro k0 cache hnodup _
    refine ⟨cache, rfl, hnodup, ?_⟩
    intro s
    constructor
    · exact Or.inl
    · rintro (hs | ⟨k, hk, _⟩)
      · exact hs
      · simp at hk
  | cons sq rest ih =>
    intro k0 cache hnodup hmix
    have hshift : ∀ (k : Nat) (hk : k < rest.length),
        recoveredFailure (oracle (k0 + 1 + k))
        ∨ OkOutcome (oracle (k0 + 1 + k)) (rest.get ⟨k, hk⟩) := by
      intro k hk
      have := hmix (k + 1) (by simpa using Nat.succ_lt_succ hk)
      rwa [show k0 + (k + 1) = k0 + 1 + k from by omega] at this
    have h0 := hmix 0 (by simp)
    rw [Nat.add_zero] at h0
    rw [runLoop]
    rcases h0 with hrec | hok
    · rw [get_distance_matrix_recovered hrec]
      simp only
      obtain ⟨final, hrun, hnod, hmem⟩ := ih (k0 + 1) cache hnodup hshift
      refine ⟨final, hrun, hnod, ?_⟩
      intro s
      rw [hmem s]
      constructor
      · rintro (hs | ⟨k, hk, hOk, hm⟩)
        · exact Or.inl hs
        · refine Or.inr ⟨k + 1, by simpa using Nat.succ_lt_succ hk, ?_, hm⟩
          rwa [show k0 + (k + 1) = k0 + 1 + k from by omega]
      · rintro (hs | ⟨k, hk, hOk, hm⟩)
        · exact Or.inl hs
        · match k, hk with
          | 0, _ =>
            rw [Nat.add_zero] at hOk
            exact absurd hOk (not_ok_of_recovered hrec)
          | k + 1, hk =>
            refine Or.inr ⟨k, by simpa using Nat.lt_of_succ_lt_succ hk, ?_, hm⟩
            rwa [show k0 + 1 + k = k0 + (k + 1) from by omega]
    · rcases horacle : oracle k0 with _ | code | data
      · rw [horacle] at hok
        exact absurd hok fun x => x
      · rw [horacle] at hok
        exact absurd hok fun x => x
      · rw [horacle] at hok
        have hshaped : OkShaped data sq.origin_batch sq.destination_batch := hok
        rw [get_distance_matrix_ok hshaped.1]
        simp only
        obtain ⟨pr, hpr, _, hmemk, hnodk⟩ := process_ok_keys hshaped
        rw [hpr]
        obtain ⟨final, hrun, hnod, hmem⟩ := ih (k0 + 1) (dupdate cache pr.1)
          (nodup_dkeys_dupdate _ _ hnodup) hshift
        refine ⟨final, hrun, hnod, ?_⟩
        intro s
        rw [hmem s, mem_dkeys_dupdate, hmemk s]
        constructor
        · rintro ((hs | hsq) | ⟨k, hk, hOk, hm⟩)
          · exact Or.inl hs
          · refine Or.inr ⟨0, by simp, ?_, hsq⟩
            rw [Nat.add_zero, horacle]
            exact hok
          · refine Or.inr ⟨k + 1, by simpa using Nat.succ_lt_succ hk, ?_, hm⟩
            rwa [show k0 + (k + 1) = k0 + 1 + k from by omega]
        · rintro (hs | ⟨k, hk, hOk, hm⟩)
          · exact Or.inl (Or.inl hs)
          · match k, hk with
            | 0, _ => exact Or.inl (Or.inr hm)
            | k + 1, hk =>
              refine Or.inr ⟨k, by simpa using Nat.lt_of_succ_lt_succ hk, ?_, hm⟩
              rwa [show k0 + 1 + k = k0 + (k + 1) from by omega]

/-- C3 counterexample: with the credential set, a bulk call that does not
complete successfully because the transport raises (network error or
timeout) is not recovered: the run aborts as crashed instead of continuing
to completion, because the source wraps no try/except around requests.get. -/
theorem transport_exception_aborts_run :
    main "key" [locA, locB] (fun _ => TransportOutcome.raised) = RunOutcome.crashed
    ∧ ("key" : String) ≠ "" := by
  constructor
  · rfl
  · decide

/-- C3 amended: the SubQuery-level failures the code detects — a non-success
HTTP response or a service-level non-OK status — are recovered: the cell
contributes no cache entries, the run completes, and the pairs of every
well-formed all-OK SubQuery are still present in the final mapping (and
every final entry comes from such a cell); a raised transport exception,
by contrast, aborts the run. -/
theorem recovered_failures_skip_cell (apiKey : String) (locations : List Location)
    (oracle : Nat → TransportOutcome) (hkey : apiKey ≠ "")
    (hmix : ∀ (k : Nat) (hk : k < (makeSubQueries locations BATCH_SIZE).length),
      recoveredFailure (oracle k)
      ∨ OkOutcome (oracle k) ((makeSubQueries locations BATCH_SIZE).get ⟨k, hk⟩)) :
    ∃ final, main apiKey locations oracle = .completed final ∧
      (∀ (k : Nat) (hk : k < (makeSubQueries locations BATCH_SIZE).length),
        OkOutcome (oracle k) ((makeSubQueries locations BATCH_SIZE).get ⟨k, hk⟩) →
        ∀ s ∈ nonselfKeys ((makeSubQueries locations BATCH_SIZE).get ⟨k, hk⟩).origin_batch
            ((makeSubQueries locations BATCH_SIZE).get ⟨k, hk⟩).destination_batch,
          s ∈ dkeys final) ∧
      (∀ s ∈ dkeys final,
        ∃ (k : Nat) (hk : k < (makeSubQueries locations BATCH_SIZE).length),
          OkOutcome (oracle k) ((makeSubQueries locations BATCH_SIZE).get ⟨k, hk⟩) ∧
          s ∈ nonselfKeys ((makeSubQueries locations BATCH_SIZE).get ⟨k, hk⟩).origin_batch
            ((makeSubQueries locations BATCH_SIZE).get ⟨k, hk⟩).destination_batch) := by
  obtain ⟨final, hrun, _, hmem⟩ := runLoop_mixed oracle
    (makeSubQueries locations BATCH_SIZE) 0 [] (by simp [dkeys])
    (fun k hk => by rw [Nat.zero_add]; exact hmix k hk)
  have hmem2 : ∀ s, s ∈ dkeys final ↔
      ∃ (k : Nat) (hk : k < (makeSubQueries locations BATCH_SIZE).length),
        OkOutcome (oracle k) ((makeSubQueries locations BATCH_SIZE).get ⟨k, hk⟩) ∧
        s ∈ nonselfKeys ((makeSubQueries locations BATCH_SIZE).get ⟨k, hk⟩).origin_batch
          ((makeSubQueries locations BATCH_SIZE).get ⟨k, hk⟩).destination_batch := by
    intro s
    rw [hmem s]
    simp [dkeys, Nat.zero_add]
  have hm : main apiKey locations oracle = .completed final := by
    unfold main
    rw [if_neg hkey, hrun]
  refine ⟨final, hm, ?_, ?_⟩
  · intro k hk hOk s hs
    exact (hmem2 s).mpr ⟨k, hk, hOk, hs⟩
  · intro s hs
    exact (hmem2 s).mp hs

theorem recovered_failures_skip_cell_witness :
    ∃ final, main "key" [locA, locB] (fun _ => TransportOutcome.httpError 500)
        = .completed final ∧
      (∀ (k : Nat) (hk : k < (makeSubQueries [locA, locB] BATCH_SIZE).length),
        OkOutcome ((fun _ => TransportOutcome.httpError 500) k)
          ((makeSubQueries [locA, locB] BATCH_SIZE).get ⟨k, hk⟩) →
        ∀ s ∈ nonselfKeys ((makeSubQueries [locA, locB] BATCH_SIZE).get ⟨k, hk⟩).origin_batch
            ((makeSubQueries [locA, locB] BATCH_SIZE).get ⟨k, hk⟩).destination_batch,
          s ∈ dkeys final) ∧
      (∀ s ∈ dkeys final,
        ∃ (k : Nat) (hk : k < (makeSubQueries [locA, locB] BATCH_SIZE).length),
          OkOutcome ((fun _ => TransportOutcome.httpError 500) k)
            ((makeSubQueries [locA, locB] BATCH_SIZE).get ⟨k, hk⟩) ∧
          s ∈ nonselfKeys ((makeSubQueries [locA, locB] BATCH_SIZE).get ⟨k, hk⟩).origin_batch
            ((makeSubQueries [locA, locB] BATCH_SIZE).get ⟨k, hk⟩).destination_batch) :=
  recovered_failures_skip_cell "key" [locA, locB]
    (fun _ => TransportOutcome.httpError 500) (by decide) (by decide)

/-- C8 counterexample: the exit status is non-zero (an uncaught transport
exception terminates the interpreter with status 1) even though the
credential is present, refuting that a non-zero exit happens only when the
credential is absent. -/
theorem crash_exit_nonzero_with_credential :
    exitCode (main "key" [locA] (fun _ => TransportOutcome.raised)) = 1
    ∧ ("key" : String) ≠ "" := by
  constructor
  · rfl
  · decide

/-- C8 amended: with the credential absent the run exits 1 before any
request, whatever the transport would have answered; with the credential
present, a completed loop exits 0 even when the cache is incomplete (the
shortfall only prints a warning); and the exit status is non-zero exactly
when the credential is absent or the loop aborts with an uncaught
exception (transport exception or response-shape IndexError). -/
theorem exit_status_behaviour (apiKey : String) (locations : List Location)
    (oracle : Nat → TransportOutcome) :
    (apiKey = "" → ∀ oracle2 : Nat → TransportOutcome,
      main apiKey locations oracle2 = .configExit 1)
    ∧ (apiKey ≠ "" → ∀ cache : RouteCache,
        runLoop oracle (makeSubQueries locations BATCH_SIZE) 0 [] = .ok cache →
        main apiKey locations oracle = .completed cache
        ∧ exitCode (main apiKey locations oracle) = 0)
    ∧ (exitCode (main apiKey locations oracle) ≠ 0
        ↔ apiKey = ""
          ∨ ∃ e, runLoop oracle (makeSubQueries locations BATCH_SIZE) 0 [] = .error e) := by
  refine ⟨?_, ?_, ?_⟩
  · intro he oracle2
    unfold main
    rw [if_pos he]
  · intro hne cache hrun
    have hm : main apiKey locations oracle = .completed cache := by
      unfold main
      rw [if_neg hne, hrun]
    exact ⟨hm, by rw [hm]; rfl⟩
  · by_cases he : apiKey = ""
    · constructor
      · intro _
        exact Or.inl he
      · intro _
        unfold main
        rw [if_pos he]
        exact one_ne_zero
    · rcases hrl : runLoop oracle (makeSubQueries locations BATCH_SIZE) 0 [] with e | cache
      · have hm : main apiKey locations oracle = .crashed := by
          unfold main
          rw [if_neg he, hrl]
        rw [hm]
        constructor
        · intro _
          exact Or.inr ⟨e, rfl⟩
        · intro _
          exact one_ne_zero
      · have hm : main apiKey locations oracle = .completed cache := by
          unfold main
          rw [if_neg he, hrl]
        rw [hm]
        simp only [exitCode]
        constructor
        · intro h0
          exact absurd rfl h0
        · rintro (he2 | ⟨e, hee⟩)
          · exact absurd he2 he
          · simp at hee

theorem exit_status_behaviour_witness :
    main "key" [] (fun _ => TransportOutcome.raised) = RunOutcome.completed []
    ∧ exitCode (main "key" [] (fun _ => TransportOutcome.raised)) = 0 :=
  (exit_status_behaviour "key" [] (fun _ => TransportOutcome.raised)).2.1
    (by decide) [] (by rfl)

theorem flatMap_filterMap {α β γ : Type} (l : List α) (g : α → List β)
    (f : β → Option γ) :
    (l.flatMap fun a => (g a).filterMap f) = (l.flatMap g).filterMap f := by
  induction l with
  | nil => simp
  | cons x xs ih => simp [List.flatMap_cons, List.filterMap_append, ih]

theorem nodup_filterMap_on {α β : Type} (l : List α) (f : α → Option β)
    (hl : l.Nodup)
    (hinj : ∀ a ∈ l, ∀ a2 ∈ l, ∀ b, f a = some b → f a2 = some b → a = a2) :
    (l.filterMap f).Nodup := by
  induction l with
  | nil => simp
  | cons a t ih =>
    rw [List.nodup_cons] at hl
    rw [List.filterMap_cons]
    have hinj2 : ∀ x ∈ t, ∀ y ∈ t, ∀ c, f x = some c → f y = some c → x = y :=
      fun x hx y hy c h1 h2 => hinj x (by simp [hx]) y (by simp [hy]) c h1 h2
    rcases hfa : f a with _ | b
    · exact ih hl.2 hinj2
    · rw [List.nodup_cons]
      constructor
      · intro hbmem
        obtain ⟨a2, ha2, hfa2⟩ := List.mem_filterMap.mp hbmem
        have := hinj a (by simp) a2 (by simp [ha2]) b hfa hfa2
        exact hl.1 (this ▸ ha2)
      · exact ih hl.2 hinj2

theorem length_row_filterMap (o : Location) :
    ∀ L : List Location,
      ((L.filterMap fun d => if o.id = d.id then none else some (rkey o d)).length)
        = L.length - ((L.map Location.id).count o.id) := by
  intro L
  induction L with
  | nil => rfl
  | cons d t ih =>
    rw [List.filterMap_cons]
    by_cases h : o.id = d.id
    · rw [if_pos h]
      have hc : ((d :: t).map Location.id).count o.id
          = ((t.map Location.id).count o.id) + 1 := by
        simp [List.count_cons, h]
      rw [List.length_cons, ih, hc]
      omega
    · rw [if_neg h]
      have hc : ((d :: t).map Location.id).count o.id
          = (t.map Location.id).count o.id := by
        simp [List.count_cons, h]
      have hcle : (t.map Location.id).count o.id ≤ t.length := by
        have := List.count_le_length o.id (t.map Location.id)
        simpa using this
      rw [List.length_cons, List.length_cons, ih, hc]
      omega

theorem nonselfKeys_cons (o : Location) (os L : List Location) :
    nonselfKeys (o :: os) L
      = (L.filterMap fun d => if o.id = d.id then none else some (rkey o d))
        ++ nonselfKeys os L := by
  unfold nonselfKeys crossPairs
  rw [List.flatMap_cons, List.filterMap_append, List.filterMap_map]
  rfl

theorem length_nonselfKeys_aux (L : List Location)
    (hids : (L.map Location.id).Nodup) :
    ∀ os : List Location, (∀ o ∈ os, o ∈ L) →
      (nonselfKeys os L).length = os.length * (L.length - 1) := by
  intro os
  induction os with
  | nil =>
    intro _
    simp [nonselfKeys, crossPairs]
  | cons o os ih =>
    intro hsub
    rw [nonselfKeys_cons, List.length_append, ih (fun x hx => hsub x (by simp [hx]))]
    have hcount : ((L.map Location.id).count o.id) = 1 :=
      List.count_eq_one_of_mem hids (List.mem_map_of_mem Location.id (hsub o (by simp)))
    rw [length_row_filterMap, hcount, List.length_cons, Nat.succ_mul]
    omega

theorem nodup_nonselfKeys (l : List Location)
    (hids : (l.map Location.id).Nodup) (hinj : KeyInj l) :
    (nonselfKeys l l).Nodup := by
  have hl : l.Nodup := hids.of_map
  apply nodup_filterMap_on _ _ (nodup_crossPairs hl hl)
  intro p hp p2 hp2 s h1 h2
  by_cases hq : p.1.id = p.2.id
  · rw [if_pos hq] at h1
    exact absurd h1 (by simp)
  · rw [if_neg hq] at h1
    by_cases hq2 : p2.1.id = p2.2.id
    · rw [if_pos hq2] at h2
      exact absurd h2 (by simp)
    · rw [if_neg hq2] at h2
      injection h1 with h1e
      injection h2 with h2e
      have hkeq : rkey p.1 p.2 = rkey p2.1 p2.2 := by rw [h1e, h2e]
      obtain ⟨hm1, hm2⟩ := mem_crossPairs.mp hp
      obtain ⟨hm3, hm4⟩ := mem_crossPairs.mp hp2
      obtain ⟨he1, he2⟩ := hinj p.1 hm1 p.2 hm2 p2.1 hm3 p2.2 hm4 hkeq
      exact Prod.ext he1 he2

/-- C2 amended: with pairwise-distinct ids and a key encoding that is
injective on ordered pairs of the registry (automatic when no id contains
an underscore), a run in which every SubQuery call returns a well-formed
all-OK response completes with a cache of exactly N * (N - 1) entries. -/
theorem full_success_cache_size (apiKey : String) (locations : List Location)
    (oracle : Nat → TransportOutcome) (hkey : apiKey ≠ "")
    (hids : (locations.map Location.id).Nodup)
    (hinj : KeyInj locations)
    (hok : ∀ (k : Nat) (hk : k < (makeSubQueries locations BATCH_SIZE).length),
      OkOutcome (oracle k) ((makeSubQueries locations BATCH_SIZE).get ⟨k, hk⟩)) :
    ∃ final, main apiKey locations oracle = .completed final ∧
      final.length = locations.length * (locations.length - 1) := by
  obtain ⟨final, hrun, hnodf, hmem⟩ := runLoop_mixed oracle
    (makeSubQueries locations BATCH_SIZE) 0 [] (by simp [dkeys])
    (fun k hk => Or.inr (by rw [Nat.zero_add]; exact hok k hk))
  have hm : main apiKey locations oracle = .completed final := by
    unfold main
    rw [if_neg hkey, hrun]
  have hBpos : 0 < BATCH_SIZE := by decide
  have hperm : List.Perm (subQueryPairs (makeSubQueries locations BATCH_SIZE))
      (crossPairs locations locations) :=
    subQueryPairs_perm locations BATCH_SIZE hBpos
  have hpermKeys : List.Perm
      ((subQueryPairs (makeSubQueries locations BATCH_SIZE)).filterMap fun p =>
        if p.1.id = p.2.id then none else some (rkey p.1 p.2))
      (nonselfKeys locations locations) := hperm.filterMap _
  have hbig : ((makeSubQueries locations BATCH_SIZE).flatMap fun sq =>
      nonselfKeys sq.origin_batch sq.destination_batch)
      = (subQueryPairs (makeSubQueries locations BATCH_SIZE)).filterMap fun p =>
        if p.1.id = p.2.id then none else some (rkey p.1 p.2) := by
    unfold nonselfKeys subQueryPairs
    exact flatMap_filterMap _ _ _
  have hmem2 : ∀ s, s ∈ dkeys final ↔ s ∈ nonselfKeys locations locations := by
    intro s
    rw [hmem s]
    constructor
    · rintro (hc | ⟨k, hk, _, hmk⟩)
      · simp [dkeys] at hc
      · apply hpermKeys.mem_iff.mp
        rw [← hbig]
        exact List.mem_flatMap.mpr
          ⟨(makeSubQueries locations BATCH_SIZE).get ⟨k, hk⟩, List.get_mem _ _ hk, hmk⟩
    · intro hs
      have hs2 : s ∈ (makeSubQueries locations BATCH_SIZE).flatMap fun sq =>
          nonselfKeys sq.origin_batch sq.destination_batch := by
        rw [hbig]
        exact hpermKeys.mem_iff.mpr hs
      obtain ⟨sq, hsq, hmk⟩ := List.mem_flatMap.mp hs2
      obtain ⟨⟨k, hk⟩, rfl⟩ := List.mem_iff_get.mp hsq
      refine Or.inr ⟨k, hk, ?_, hmk⟩
      rw [Nat.zero_add]
      exact hok k hk
  have hnodt := nodup_nonselfKeys locations hids hinj
  have hpermf : List.Perm (dkeys final) (nonselfKeys locations locations) :=
    (List.perm_ext_iff_of_nodup hnodf hnodt).mpr hmem2
  have hlen := hpermf.length_eq
  refine ⟨final, hm, ?_⟩
  have h1 : (dkeys final).length = final.length := by simp [dkeys]
  rw [← h1, hlen, length_nonselfKeys_aux locations hids locations (fun o ho => ho)]

/-- C2 counterexample: the ids "a" and "a_a" are pairwise distinct and
every SubQuery call returns a well-formed all-OK response, yet the two
non-self pairs (a, a_a) and (a_a, a) share the composite key "a_a_a", so
the final cache holds 1 entry instead of N * (N - 1) = 2. -/
theorem key_collision_breaks_count :
    ((([locA, locU] : List Location).map Location.id).Nodup)
    ∧ (∀ (k : Nat) (hk : k < (makeSubQueries [locA, locU] BATCH_SIZE).length),
        OkOutcome ((fun _ => TransportOutcome.jsonResponse resp2x2) k)
          ((makeSubQueries [locA, locU] BATCH_SIZE).get ⟨k, hk⟩))
    ∧ (main "key" [locA, locU] (fun _ => TransportOutcome.jsonResponse resp2x2)
        = .completed [(("a_a_a" : String),
            ({ distance_km_tenths := 90, duration_seconds := 90 } : RouteInfo))])
    ∧ ([(("a_a_a" : String),
          ({ distance_km_tenths := 90, duration_seconds := 90 } : RouteInfo))] : RouteCache).length
        ≠ ([locA, locU] : List Location).length
          * (([locA, locU] : List Location).length - 1) := by
  refine ⟨by decide, by decide, by rfl, by decide⟩

theorem full_success_cache_size_witness :
    ∃ final, main "key" [locA, locB]
        (fun _ => TransportOutcome.jsonResponse resp2x2) = .completed final ∧
      final.length = ([locA, locB] : List Location).length
        * (([locA, locB] : List Location).length - 1) :=
  full_success_cache_size "key" [locA, locB]
    (fun _ => TransportOutcome.jsonResponse resp2x2)
    (by decide) (by decide) (by decide) (by decide)

end RoutesGen
